import Mathlib

/-!
Verification of the part-number resolution engine of the `workflows` repository
(`src/image_processing/src/services/part_mapping_service.py`).

The Python code is shallowly embedded: strings are `List Char` / `String`,
Python's `dict` is an association list with overwrite-on-insert, the FileMaker
database is a record holding the active `Master` rows and the raw interchange
rows, floating-point confidence scores are exact rationals, and the regular
expressions used by `_extract_part_numbers_from_filename` are embedded as
executable functions that follow Python `re` semantics (lazy/greedy
quantifiers, `findall` scanning, `$` matching at the end or before a final
newline) on the ASCII fragment relevant to filenames.
-/

/-- ASCII whitespace, as recognised by Python's `str.strip` / `\s`. -/
def isSpaceP (c : Char) : Bool :=
  c == ' ' || c == '\t' || c == '\n' || c == '\r' || c == '\x0b' || c == '\x0c'

/-- ASCII decimal digit, the embedding of the `\d` character class. -/
def isDigitP (c : Char) : Bool := '0' ≤ c && c ≤ '9'

/-- The `[A-Z]` character class. -/
def isUpperAZ (c : Char) : Bool := 'A' ≤ c && c ≤ 'Z'

/-- The `[A-Z0-9]` character class. -/
def isAlnumAZ (c : Char) : Bool := isUpperAZ c || isDigitP c

/-- The 26 lowercase/uppercase ASCII letter pairs used to embed `str.upper`. -/
def lowerUpperPairs : List (Char × Char) :=
  [('a','A'),('b','B'),('c','C'),('d','D'),('e','E'),('f','F'),('g','G'),
   ('h','H'),('i','I'),('j','J'),('k','K'),('l','L'),('m','M'),('n','N'),
   ('o','O'),('p','P'),('q','Q'),('r','R'),('s','S'),('t','T'),('u','U'),
   ('v','V'),('w','W'),('x','X'),('y','Y'),('z','Z')]

/-- Uppercase a single character (embedding of `str.upper`, ASCII fragment). -/
def upChar (c : Char) : Char :=
  match lowerUpperPairs.find? (fun p => p.1 == c) with
  | some p => p.2
  | none => c

/-- Uppercase a character list. -/
def upperL (l : List Char) : List Char := l.map upChar

/-- Uppercase a string (`str.upper`). -/
def upperStr (s : String) : String := ⟨upperL s.data⟩

/-- Python `str.strip()` on a character list: drop whitespace from both ends. -/
def pyStripL (l : List Char) : List Char :=
  ((l.dropWhile isSpaceP).reverse.dropWhile isSpaceP).reverse

/-- Python `str.strip()` on a string. -/
def pyStripS (s : String) : String := ⟨pyStripL s.data⟩

/-- The final path component, as in `pathlib.PurePosixPath(...).name`:
split on `/`, ignore empty and `"."` components, take the last. -/
def pathName (l : List Char) : List Char :=
  (((l.splitOn '/').filter (fun c => !c.isEmpty && c ≠ ['.'])).getLast?).getD []

/-- Index of the last dot in a character list (Python `str.rfind`). -/
def rfindDot (l : List Char) : Option Nat :=
  match l.reverse.findIdx? (fun c => c == '.') with
  | none => none
  | some j => some (l.length - 1 - j)

/-- Embedding of `pathlib.Path(...).stem` applied to a path's `name`: strip the
last suffix when the last dot is at an interior position (`0 < i < len-1`). -/
def stemOfName (name : List Char) : List Char :=
  match rfindDot name with
  | some i => if 0 < i ∧ i < name.length - 1 then name.take i else name
  | none => name

/-- Embedding of `pathlib.Path(filename).stem`. -/
def pathStem (filename : String) : List Char := stemOfName (pathName filename.data)

/-!
## Extraction rules

`_extract_part_numbers_from_filename` applies, in order, the patterns

  1. `^([A-Z]{0,2}\d{4,8})`
  2. `^(.+?)_\d+$`
  3. `^(.+?)\s*\(\d+\)$`
  4. `^(.+?)(?:_detail|_main|_front|_back|_top|_bottom)$`
  5. `([A-Z]{0,2}\d{4,8})` (unanchored `findall`)
  6. `^([A-Z0-9]{4,12})`

to the upper-cased stem, then a whole-string alphanumeric fallback.
-/

/-- Match `[A-Z]{0,2}\d{4,8}` (greedy, with backtracking) at the start of `s`:
the full leading letter run must have length at most 2 and be followed by at
least 4 digits; the match takes at most 8 of those digits. -/
def matchNumAt (s : List Char) : Option (List Char) :=
  let j := (s.takeWhile isUpperAZ).length
  if j ≤ 2 then
    let d := ((s.drop j).takeWhile isDigitP).length
    if 4 ≤ d then some (s.take (j + min d 8)) else none
  else none

/-- Pattern 1, `re.findall` of `[A-Z]{0,2}\d{4,8}` anchored at position 0:
at most one match. -/
def rule1Matches (s : List Char) : List (List Char) := (matchNumAt s).toList

/-- Embedding of `re.findall` scanning for pattern 5: try a match at each
position, left to right; on success emit it and continue after the matched
text. The fuel is an upper bound on the number of steps (each step consumes
at least one character). -/
def scanNumAux : Nat → List Char → List (List Char)
  | 0, _ => []
  | _ + 1, [] => []
  | n + 1, s@(_ :: rest) =>
    match matchNumAt s with
    | some m => m :: scanNumAux n (s.drop m.length)
    | none => scanNumAux n rest

/-- Pattern 5, the unanchored `re.findall` of `[A-Z]{0,2}\d{4,8}`. -/
def rule5Matches (s : List Char) : List (List Char) := scanNumAux s.length s

/-- Does `t` match `\d+$`? Python's `$` matches at the end of the string or
just before a newline at the end. -/
def dollarDigits (t : List Char) : Bool :=
  let core := if t.getLast? == some '\n' then t.dropLast else t
  !core.isEmpty && core.all isDigitP

/-- Generic scanner for the lazy patterns `^(.+?)<tail>`: scan split points
left to right (so the shortest capture wins, as `.+?` backtracks), requiring
a nonempty newline-free capture and a rest accepted by `ok`. -/
def lazyFind (ok : List Char → Bool) : List Char → List Char → Option (List Char)
  | _, [] => none
  | pre, c :: t =>
    if !pre.isEmpty && pre.all (fun x => x ≠ '\n') && ok (c :: t) then some pre
    else lazyFind ok (pre ++ [c]) t

/-- Does the rest match an underscore followed by `\d+$`? (the non-capture
part of pattern 2). -/
def dollarUnderscoreOK (rest : List Char) : Bool :=
  match rest with
  | '_' :: t => dollarDigits t
  | _ => false

/-- Pattern 2, `re.findall` of the lazy capture followed by an underscore and
trailing digits. -/
def rule2Matches (s : List Char) : List (List Char) := (lazyFind dollarUnderscoreOK [] s).toList

/-- Does `r` match `\s*\(\d+\)$`? Since the opening parenthesis is not
whitespace, `\s*` must consume exactly the maximal leading whitespace run. -/
def parenTailOK (r : List Char) : Bool :=
  let core := if r.getLast? == some '\n' then r.dropLast else r
  match core.dropWhile isSpaceP with
  | '(' :: m => m.getLast? == some ')' && !m.dropLast.isEmpty && m.dropLast.all isDigitP
  | _ => false

/-- Pattern 3, `re.findall` of the lazy capture followed by optional whitespace
and a parenthesised digit group. -/
def rule3Matches (s : List Char) : List (List Char) := (lazyFind parenTailOK [] s).toList

/-- The literal alternatives of pattern 4 (note: lower case, exactly as they
appear in the source). -/
def descSuffixes : List (List Char) :=
  ["_detail", "_main", "_front", "_back", "_top", "_bottom"].map String.data

/-- Does `t` match one of the six descriptive suffixes at `$`? -/
def descTailOK (t : List Char) : Bool :=
  let core := if t.getLast? == some '\n' then t.dropLast else t
  descSuffixes.any (fun sfx => core == sfx)

/-- Pattern 4, `re.findall` of the lazy capture followed by one of the
descriptive suffixes. -/
def rule4Matches (s : List Char) : List (List Char) := (lazyFind descTailOK [] s).toList

/-- Pattern 6, `re.findall` of `[A-Z0-9]{4,12}` anchored at position 0: the
greedy leading alphanumeric run, capped at 12 characters, needing at least 4. -/
def rule6Matches (s : List Char) : List (List Char) :=
  let r := s.takeWhile isAlnumAZ
  if 4 ≤ r.length then [r.take 12] else []

/-- All raw matches produced by the six patterns, in pattern order. -/
def allRuleMatches (s : List Char) : List (List Char) :=
  rule1Matches s ++ rule2Matches s ++ rule3Matches s ++ rule4Matches s ++
    rule5Matches s ++ rule6Matches s

/-- The body of the accumulation loop: `clean_match` is the stripped match,
appended when it has length at least 4 and is not already accumulated. -/
def addUnique (acc : List String) (m : List Char) : List String :=
  let c : String := ⟨pyStripL m⟩
  if 4 ≤ c.length ∧ c ∉ acc then acc ++ [c] else acc

/-- The extractor applied to the upper-cased stem: accumulate unique stripped
matches over all patterns, fall back to the cleaned-up whole string when
nothing matched, return the first 3. -/
def extractFromStem (u : List Char) : List String :=
  let extracted := (allRuleMatches u).foldl addUnique []
  let extracted :=
    if extracted.isEmpty then
      let clean := u.filter isAlnumAZ
      if 4 ≤ clean.length then [(⟨clean⟩ : String)] else []
    else extracted
  extracted.take 3

/-- Embedding of `PartMappingService._extract_part_numbers_from_filename`. -/
def extract_part_numbers_from_filename (filename : String) : List String :=
  extractFromStem (upperL (pathStem filename))

/-!
## Data model and database

`InterchangeMapping` and `PartMappingResult` follow
`src/models/part_mapping_models.py` (the pydantic `created_at` timestamp and
the permissive `extra = "allow"` bag are outside the embedding). Confidence
scores are exact rationals. The FileMaker database is embedded as the data
the service's three SQL queries can observe: the connection flag, the
`AS400_NumberStripped` values of the active `Master` rows, and the raw
`(ICPCD, ICPNO, IPTNO)` rows of `as400_ininter` (a column value is `none`
for SQL NULL).
-/

/-- Model of `InterchangeMapping` from `part_mapping_models.py`. -/
structure InterchangeMapping where
  old_part_number : String
  new_part_number : String
  interchange_code : String := ""
  confidence : ℚ := mkRat 1 1
deriving DecidableEq, Repr

/-- Model of `PartMappingResult` from `part_mapping_models.py` (the pydantic
timestamp `created_at` and the permissive extra-field bag are outside the
embedding); confidence scores are exact rationals. -/
structure PartMappingResult where
  original_filename : String
  extracted_numbers : List String
  mapped_part_number : Option String
  confidence_score : ℚ
  mapping_method : String
  interchange_mapping : Option InterchangeMapping := none
  requires_manual_review : Bool := false
  error_message : Option String := none
deriving DecidableEq, Repr

/-- One row of the `as400_ininter` bulk read: `(ICPCD, ICPNO, IPTNO)`; a
column value is `none` for SQL NULL. -/
structure InterRow where
  icpcd : Option String
  icpno : Option String
  iptno : Option String
deriving DecidableEq, Repr

/-- The observable state of the FileMaker database. `connected` models both
`test_connection()` and the truthiness of the service's connection handle;
`master` holds the `AS400_NumberStripped` values of the rows with
`ToggleActive` set, in table order; `interRows` holds the raw interchange
rows. -/
structure Db where
  connected : Bool
  master : List String
  interRows : List InterRow
deriving DecidableEq, Repr

/-- Python truthiness of a nullable string column value. -/
def truthyOpt (o : Option String) : Bool :=
  match o with
  | none => false
  | some s => !s.isEmpty

/-- The interchange cache: a Python `dict` keyed by old part number, embedded
as an association list with overwrite-on-insert. -/
abbrev Cache := List (String × InterchangeMapping)

/-- Embedding of `dict` assignment: replace the value at an existing key, else
append. -/
def dinsert : Cache → String → InterchangeMapping → Cache
  | [], k, v => [(k, v)]
  | (k', v') :: t, k, v =>
    if k' = k then (k, v) :: t else (k', v') :: dinsert t k v

/-- Embedding of `dict` lookup and the `in`-test: the first (and only) entry
with the given key. -/
def dlookup (c : Cache) (k : String) : Option InterchangeMapping :=
  (List.find? (fun kv => kv.1 = k) c).map (fun kv => kv.2)

/-- The interchange mapping built from a kept row: old and new numbers are
stripped and upper-cased, the code is stripped only (and empty when the
column is falsy). -/
def rowMapping (r : InterRow) : InterchangeMapping :=
  { old_part_number := upperStr (pyStripS (r.icpno.getD ""))
    new_part_number := upperStr (pyStripS (r.iptno.getD ""))
    interchange_code := if truthyOpt r.icpcd then pyStripS (r.icpcd.getD "") else "" }

/-- The loop body of `_load_interchange_mappings`: keep the row when `ICPNO`
and `IPTNO` are both truthy, keying the cache by the normalised old number. -/
def processRow (cache : Cache) (r : InterRow) : Cache :=
  if truthyOpt r.icpno && truthyOpt r.iptno then
    dinsert cache (rowMapping r).old_part_number (rowMapping r)
  else cache

/-- Embedding of `PartMappingService._load_interchange_mappings`, returning
the cache it builds: empty when the connection test fails, otherwise one
pass over the interchange rows. -/
def load_interchange_mappings (db : Db) : Cache :=
  if db.connected then db.interRows.foldl processRow [] else []

/-- Embedding of `PartMappingService._is_current_part_number`: false without a
connection, else the counting query over active master rows with an exact
match on `AS400_NumberStripped` (a query failure is caught and yields
false; with the database embedded as data the query itself is total). -/
def is_current_part_number (db : Db) (part_number : String) : Bool :=
  if db.connected then
    decide (0 < (db.master.countP (fun row => row = part_number)))
  else false

/-- SQL `LIKE` matching, on fuel (every step shrinks pattern or subject, so
pattern length + subject length + 1 steps always suffice): a percent sign
matches any sequence, an underscore any single character, anything else
itself. -/
def likeMatchAux : Nat → List Char → List Char → Bool
  | 0, _, _ => false
  | _ + 1, [], [] => true
  | _ + 1, [], _ :: _ => false
  | n + 1, '%' :: ps, s =>
    likeMatchAux n ps s ||
      (match s with
       | [] => false
       | _ :: t => likeMatchAux n ('%' :: ps) t)
  | n + 1, '_' :: ps, s =>
    match s with
    | [] => false
    | _ :: t => likeMatchAux n ps t
  | n + 1, p :: ps, s =>
    match s with
    | [] => false
    | c :: t => p == c && likeMatchAux n ps t

/-- SQL `LIKE` matching of a whole subject string against a pattern. -/
def likeMatch (ps s : List Char) : Bool := likeMatchAux (ps.length + s.length + 1) ps s

/-- The fuzzy-match query, a `LIKE`-search over active master rows with
`LIMIT 1`: the first active master row the pattern `%v%` matches. -/
def likeFirst (master : List String) (v : String) : Option String :=
  master.find? (fun row => likeMatch ('%' :: v.data ++ ['%']) row.data)

/-- Python `str.lstrip` with the zero character. -/
def lstripZeros (s : String) : String := ⟨s.data.dropWhile (fun c => c == '0')⟩

/-- Python `str.zfill(8)`: left-pad with zeros to length 8, keeping a leading
sign in front of the padding. -/
def zfill8 (s : String) : String :=
  if 8 ≤ s.length then s
  else
    match s.data with
    | c :: t =>
      if c == '+' || c == '-' then ⟨c :: List.replicate (8 - s.length) '0' ++ t⟩
      else ⟨List.replicate (8 - s.length) '0' ++ s.data⟩
    | [] => ⟨List.replicate 8 '0'⟩

/-- The record a successful strategy returns inside `_find_best_part_match`
and `_find_fuzzy_match`. -/
structure MatchInfo where
  part_number : String
  confidence : ℚ
  method : String
  interchange : Option InterchangeMapping := none
deriving DecidableEq, Repr

/-- The variation list tried by `_find_fuzzy_match`, in source order. -/
def variationsOf (part_number : String) : List String :=
  [part_number, lstripZeros part_number, zfill8 part_number,
   "J" ++ part_number, "A" ++ part_number]

/-- The loop of `_find_fuzzy_match`: skip a variation equal to the candidate
itself, otherwise run the `LIKE`-query and return the matched row on the
first hit. -/
def tryVariations (db : Db) (part_number : String) : List String → Option MatchInfo
  | [] => none
  | v :: rest =>
    if v = part_number then tryVariations db part_number rest
    else
      match likeFirst db.master v with
      | some row => some { part_number := row, confidence := mkRat 6 10, method := "fuzzy_match" }
      | none => tryVariations db part_number rest

/-- Embedding of `PartMappingService._find_fuzzy_match` (its exception branch
returns `None`; with the database embedded as data the body is total). -/
def find_fuzzy_match (db : Db) (part_number : String) : Option MatchInfo :=
  if db.connected then tryVariations db part_number (variationsOf part_number)
  else none

/-!
## The resolver
-/

/-- The loop of `_find_best_part_match`: a direct match or an interchange hit
returns immediately; a fuzzy match is recorded as the running best only
when its confidence is strictly greater than the recorded one. -/
def find_best_aux (db : Db) (cache : Cache) :
    List String → Option MatchInfo → Option MatchInfo
  | [], best => best
  | part_number :: rest, best =>
    if is_current_part_number db part_number then
      some { part_number := part_number, confidence := mkRat 95 100, method := "direct_match" }
    else
      match dlookup cache part_number with
      | some mapping =>
        some { part_number := mapping.new_part_number, confidence := mkRat 85 100,
               method := "interchange_mapping", interchange := some mapping }
      | none =>
        match find_fuzzy_match db part_number with
        | some fm =>
          let best' :=
            match best with
            | none => some fm
            | some b => if b.confidence < fm.confidence then some fm else some b
          find_best_aux db cache rest best'
        | none => find_best_aux db cache rest best

/-- Embedding of `PartMappingService._find_best_part_match`. -/
def find_best_part_match (db : Db) (cache : Cache) (extracted_numbers : List String) :
    Option MatchInfo :=
  find_best_aux db cache extracted_numbers none

/-- The body of the `try` block of `map_filename_to_part_number`, in the
exception monad. With the database embedded as data every step is total, so
the body never ends in `Except.error`; the constructor is kept to mirror
the source's exception-handling structure. -/
def mapBody (db : Db) (cache : Cache) (filename : String) :
    Except String PartMappingResult :=
  let extracted_numbers := extract_part_numbers_from_filename filename
  if extracted_numbers.isEmpty then
    Except.ok
      { original_filename := filename, extracted_numbers := [],
        mapped_part_number := none, confidence_score := mkRat 0 1,
        mapping_method := "no_extraction", requires_manual_review := true }
  else
    match find_best_part_match db cache extracted_numbers with
    | some best =>
      Except.ok
        { original_filename := filename, extracted_numbers := extracted_numbers,
          mapped_part_number := some best.part_number,
          confidence_score := best.confidence, mapping_method := best.method,
          interchange_mapping := best.interchange,
          requires_manual_review := decide (best.confidence < mkRat 8 10) }
    | none =>
      Except.ok
        { original_filename := filename, extracted_numbers := extracted_numbers,
          mapped_part_number := extracted_numbers.head?, confidence_score := mkRat 3 10,
          mapping_method := "best_guess", requires_manual_review := true }

/-- Embedding of `PartMappingService.map_filename_to_part_number`: the
exception handler converts an escaped exception into a terminal error
result. (The `handle_processing_errors` decorator around the method only
acts on exceptions this handler lets through, so it is inert here.) -/
def map_filename_to_part_number (db : Db) (cache : Cache) (filename : String) :
    PartMappingResult :=
  match mapBody db cache filename with
  | Except.ok r => r
  | Except.error e =>
    { original_filename := filename, extracted_numbers := [],
      mapped_part_number := none, confidence_score := mkRat 0 1,
      mapping_method := "error", error_message := some e,
      requires_manual_review := true }

/-- The sequence of cache states a concurrent reader can observe during
`refresh_interchange_cache`: the state before the call, the state right
after the live dictionary is cleared, and (when the reload runs) the state
after each row processed by `_load_interchange_mappings`. -/
def refreshStates (db : Db) (cache : Cache) : List Cache :=
  cache :: ([] : Cache) ::
    (if db.connected then (db.interRows.scanl processRow []).drop 1 else [])

/-- A sample database: active parts `J1234567` and `12345`, one interchange
row mapping `OLD12345` to `12345`. -/
def dbScenario : Db :=
  { connected := true, master := ["J1234567", "12345"],
    interRows := [{ icpcd := some "", icpno := some "OLD12345", iptno := some "12345" }] }

/-- Modelled from the spec: fuzzy variant matching as section 4.4.1 of the
spec words it, querying the Part Existence Oracle (the exact active-part
lookup) for each variation in order, skipping variations equal to the
candidate. Used only to compare the spec's description of
`_find_fuzzy_match` with the source. -/
def tryVariationsExact (db : Db) (part_number : String) : List String → Option MatchInfo
  | [] => none
  | v :: rest =>
    if v = part_number then tryVariationsExact db part_number rest
    else if is_current_part_number db v then
      some { part_number := v, confidence := mkRat 6 10, method := "fuzzy_match" }
    else tryVariationsExact db part_number rest

/-- Modelled from the spec: the whole of section 4.4.1 under the claim's
reading (oracle as exact lookup); first oracle hit wins, confidence fixed
at 0.6. -/
def fuzzySpecExact (db : Db) (part_number : String) : Option MatchInfo :=
  if db.connected then tryVariationsExact db part_number (variationsOf part_number)
  else none

/-- The amended description of `_find_fuzzy_match`: iterate the variations in
order, skip those equal to the candidate, and for each run the active-part
substring (`LIKE`) query; the first hit returns the matched row's part
number with confidence 0.6. Stated with `filter` and `findSome?` so the
comparison with the source's loop is a real equivalence. -/
def fuzzySpecLike (db : Db) (part_number : String) : Option MatchInfo :=
  if db.connected then
    ((variationsOf part_number).filter (fun v => v ≠ part_number)).findSome?
      (fun v =>
        (likeFirst db.master v).map
          (fun row => { part_number := row, confidence := mkRat 6 10, method := "fuzzy_match" }))
  else none

/-!
## Character-level lemmas
-/

/-- The lowercase ASCII letters (first components of the case table). -/
def lcsChars : List Char := lowerUpperPairs.map Prod.fst

/-- First-occurrence deduplication, on fuel (the list length always suffices):
keep the head, drop its later duplicates, recurse. -/
def firstDedupAux : Nat → List String → List String
  | 0, _ => []
  | _ + 1, [] => []
  | n + 1, x :: t => x :: firstDedupAux n (t.filter (fun y => y != x))

/-- First-occurrence deduplication of a list of candidates. -/
def firstDedup (l : List String) : List String := firstDedupAux l.length l

/-- The stripped rule matches that survive the length filter, in rule order. -/
def prepCands (l : List (List Char)) : List String :=
  (l.map (fun m => (⟨pyStripL m⟩ : String))).filter (fun c => decide (4 ≤ c.length))

/-- The shape every result of `_find_best_part_match` has: one of the three
strategies, with its fixed confidence. -/
def MatchShape (mi : MatchInfo) : Prop :=
  (mi.method = "direct_match" ∧ mi.confidence = mkRat 95 100 ∧ mi.interchange = none) ∨
  (mi.method = "interchange_mapping" ∧ mi.confidence = mkRat 85 100 ∧
    ∃ m, mi.interchange = some m ∧ mi.part_number = m.new_part_number) ∨
  (mi.method = "fuzzy_match" ∧ mi.confidence = mkRat 6 10 ∧ mi.interchange = none)

/-- A database whose only active part contains the zero-padded variant of
the candidate `1234` strictly inside a longer part number. -/
def dbC7 : Db := { connected := true, master := ["ZZ00001234ZZ"], interRows := [] }

/-- Is an interchange row kept by the load loop (both `ICPNO` and `IPTNO`
truthy)? -/
def rowKept (r : InterRow) : Bool := truthyOpt r.icpno && truthyOpt r.iptno

/-- The cache key a kept row is stored under. -/
def rowKey (r : InterRow) : String := (rowMapping r).old_part_number

/-- Rows exercising the skip rule, normalisation and last-write-wins. -/
def dbC8 : Db :=
  { connected := true, master := [],
    interRows :=
      [ { icpcd := some "", icpno := some "old1", iptno := some "new1" },
        { icpcd := some "C2", icpno := some " Old1 ", iptno := some " new2 " },
        { icpcd := some "C3", icpno := none, iptno := some "xxx" } ] }

/-- A database with one interchange row, used for the refresh analysis. -/
def dbC9 : Db :=
  { connected := true, master := [],
    interRows := [{ icpcd := some "", icpno := some "B", iptno := some "NB" }] }

/-- The cache contents before the refresh in the C9 analysis. -/
def mapA : InterchangeMapping :=
  { old_part_number := "A", new_part_number := "NA", interchange_code := "" }

/-- The mapping that the row of `dbC9` loads into the cache. -/
def mapB : InterchangeMapping :=
  { old_part_number := "B", new_part_number := "NB", interchange_code := "" }

/-- A nonempty pre-refresh cache for the C9 analysis. -/
def cacheC9 : Cache := [("A", mapA)]

example : pathStem "12345_2.jpg" = "12345_2".data := by decide

example : pathStem "a/b.tar.gz" = "b.tar".data := by decide

example : pathStem "" = [] := by decide

example : pathStem ".jpg" = ".jpg".data := by decide

example : upperStr "aZ_9" = "AZ_9" := by decide

example : pyStripS "  a b\t" = "a b" := by decide

example : extract_part_numbers_from_filename "12345_2.jpg" = ["12345"] := by decide

example : extract_part_numbers_from_filename "12345 (2).jpg" = ["12345"] := by decide

example : extract_part_numbers_from_filename "J1234567_detail.jpg" = ["J1234567"] := by decide

example : extract_part_numbers_from_filename "crown_12345_v2.jpg" = ["12345", "CROWN"] := by
  decide

example : extract_part_numbers_from_filename "12.jpg" = [] := by decide

example : extract_part_numbers_from_filename "" = [] := by decide

example : extract_part_numbers_from_filename "AB_CD_2.jpg" = ["AB_CD"] := by decide

example : extract_part_numbers_from_filename "1234_5678_9.jpg" =
    ["1234", "1234_5678", "5678"] := by decide

example : extract_part_numbers_from_filename "XY_ZW_detail.jpg" = ["XYZWDETAIL"] := by decide

example : extract_part_numbers_from_filename "AAB1234.jpg" = ["AB1234", "AAB1234"] := by decide

example : extract_part_numbers_from_filename "A123456789.tif" =
    ["A12345678", "A123456789"] := by decide

example : extract_part_numbers_from_filename "12345678901234.jpg" =
    ["12345678", "901234", "123456789012"] := by decide

example : extract_part_numbers_from_filename "  AB (2).jpg" = [] := by decide

example : extract_part_numbers_from_filename "unknown_part_123.jpg" =
    ["UNKNOWN_PART", "UNKNOWN"] := by decide

example : extract_part_numbers_from_filename "OLD12345_1.jpg" =
    ["OLD12345", "LD12345"] := by decide

example : extract_part_numbers_from_filename "A  (2)(3).png" = ["A  (2)"] := by decide

example : extract_part_numbers_from_filename "ABCD_12\n.jpg" = ["ABCD"] := by decide

example : extract_part_numbers_from_filename "x\n1234_5.jpg" = ["1234"] := by decide

example : zfill8 "1234" = "00001234" := by decide

example : zfill8 "-12" = "-0000012" := by decide

example : zfill8 "ABCDEFGHI" = "ABCDEFGHI" := by decide

example : zfill8 "" = "00000000" := by decide

example : lstripZeros "0000" = "" := by decide

example : load_interchange_mappings dbScenario =
    [("OLD12345",
      { old_part_number := "OLD12345", new_part_number := "12345", interchange_code := "" })] := by
  decide

example :
    map_filename_to_part_number dbScenario (load_interchange_mappings dbScenario)
      "J1234567_detail.jpg" =
    { original_filename := "J1234567_detail.jpg", extracted_numbers := ["J1234567"],
      mapped_part_number := some "J1234567", confidence_score := mkRat 95 100,
      mapping_method := "direct_match", requires_manual_review := false } := by
  decide

example :
    map_filename_to_part_number dbScenario (load_interchange_mappings dbScenario)
      "OLD12345_1.jpg" =
    { original_filename := "OLD12345_1.jpg", extracted_numbers := ["OLD12345", "LD12345"],
      mapped_part_number := some "12345", confidence_score := mkRat 85 100,
      mapping_method := "interchange_mapping",
      interchange_mapping := some
        { old_part_number := "OLD12345", new_part_number := "12345", interchange_code := "" },
      requires_manual_review := false } := by
  decide

example :
    (map_filename_to_part_number dbScenario (load_interchange_mappings dbScenario)
      "12345 (2).jpg").mapping_method = "direct_match" := by decide

example :
    map_filename_to_part_number dbScenario (load_interchange_mappings dbScenario) "" =
    { original_filename := "", extracted_numbers := [], mapped_part_number := none,
      confidence_score := mkRat 0 1, mapping_method := "no_extraction",
      requires_manual_review := true } := by decide

example :
    (map_filename_to_part_number dbScenario (load_interchange_mappings dbScenario)
      "unknown_part_123.jpg") =
    { original_filename := "unknown_part_123.jpg",
      extracted_numbers := ["UNKNOWN_PART", "UNKNOWN"],
      mapped_part_number := some "UNKNOWN_PART", confidence_score := mkRat 3 10,
      mapping_method := "best_guess", requires_manual_review := true } := by
  decide

/-- Uppercasing is idempotent per character. -/
theorem upChar_idem (c : Char) : upChar (upChar c) = upChar c := by
  have key : ∀ p ∈ lowerUpperPairs, lowerUpperPairs.find? (fun q => q.1 == p.2) = none := by
    decide
  cases h : lowerUpperPairs.find? (fun p => p.1 == c) with
  | some p =>
    have hc : upChar c = p.2 := by simp only [upChar, h]
    rw [hc]
    simp only [upChar, key p (List.mem_of_find?_eq_some h)]
  | none =>
    have hc : upChar c = c := by simp only [upChar, h]
    rw [hc]
    exact hc

/-- Uppercasing preserves whitespace-ness. -/
theorem isSpaceP_upChar (c : Char) : isSpaceP (upChar c) = isSpaceP c := by
  have key : ∀ p ∈ lowerUpperPairs, isSpaceP p.1 = false ∧ isSpaceP p.2 = false := by decide
  cases h : lowerUpperPairs.find? (fun p => p.1 == c) with
  | some p =>
    have hc : upChar c = p.2 := by simp only [upChar, h]
    have hp := key p (List.mem_of_find?_eq_some h)
    have hc1 : p.1 = c := by
      have := List.find?_some h
      simpa using this
    rw [hc, hp.2, ← hc1, hp.1]
  | none =>
    have hc : upChar c = c := by simp only [upChar, h]
    rw [hc]

/-- An uppercased character is never a lowercase letter. -/
theorem upChar_notin_lcs (c : Char) : upChar c ∉ lcsChars := by
  have key : ∀ p ∈ lowerUpperPairs, p.2 ∉ lcsChars := by decide
  cases h : lowerUpperPairs.find? (fun p => p.1 == c) with
  | some p =>
    have hc : upChar c = p.2 := by simp only [upChar, h]
    rw [hc]
    exact key p (List.mem_of_find?_eq_some h)
  | none =>
    have hc : upChar c = c := by simp only [upChar, h]
    rw [hc]
    intro hmem
    rcases List.mem_map.mp hmem with ⟨p, hp, hfst⟩
    have := List.find?_eq_none.mp h p hp
    simp [hfst] at this

/-- Uppercasing a character list is idempotent. -/
theorem upperL_idem (l : List Char) : upperL (upperL l) = upperL l := by
  simp only [upperL, List.map_map]
  exact List.map_congr_left (fun c _ => upChar_idem c)

/-- Characters of an uppercased list are never lowercase letters. -/
theorem upperL_notin_lcs {l : List Char} {c : Char} (h : c ∈ upperL l) : c ∉ lcsChars := by
  rcases List.mem_map.mp h with ⟨a, _, rfl⟩
  exact upChar_notin_lcs a

/-- A `dropWhile` never returns a list whose head satisfies the predicate. -/
theorem head_dropWhile_false {p : Char → Bool} :
    ∀ {l x : List Char} {c : Char}, l.dropWhile p = c :: x → p c = false := by
  intro l
  induction l with
  | nil => intro x c h; simp at h
  | cons a t ih =>
    intro x c h
    by_cases ha : p a
    · rw [List.dropWhile_cons_of_pos ha] at h
      exact ih h
    · rw [List.dropWhile_cons_of_neg ha] at h
      cases h
      simpa using ha

/-- A `dropWhile` is a suffix: its last element is the last element of the
input whenever the result is nonempty. -/
theorem getLast?_dropWhile {p : Char → Bool} :
    ∀ {l : List Char}, (l.dropWhile p).isEmpty = false → (l.dropWhile p).getLast? = l.getLast? := by
  intro l
  induction l with
  | nil => intro h; simp at h
  | cons a t ih =>
    intro h
    by_cases ha : p a
    · rw [List.dropWhile_cons_of_pos ha] at h ⊢
      rw [ih h, List.getLast?_cons]
      cases ht : t.getLast? with
      | some y => simp
      | none =>
        rw [List.getLast?_eq_none_iff] at ht
        subst ht
        simp [List.dropWhile] at h
    · rw [List.dropWhile_cons_of_neg ha]

/-- A `dropWhile` whose input starts with a failing character is the input. -/
theorem dropWhile_eq_self_of_head {p : Char → Bool} {l : List Char}
    (h : ∀ c x, l = c :: x → p c = false) : l.dropWhile p = l := by
  cases l with
  | nil => rfl
  | cons a t => exact List.dropWhile_cons_of_neg (by simp [h a t rfl])

/-- Stripping is idempotent. -/
theorem pyStripL_idem (l : List Char) : pyStripL (pyStripL l) = pyStripL l := by
  unfold pyStripL
  set A := l.dropWhile isSpaceP with hA
  set B := A.reverse.dropWhile isSpaceP with hB
  have hBhead : B.dropWhile isSpaceP = B := by
    apply dropWhile_eq_self_of_head
    intro c x hcx
    exact head_dropWhile_false (hB ▸ hcx)
  have hstep1 : B.reverse.dropWhile isSpaceP = B.reverse := by
    apply dropWhile_eq_self_of_head
    intro c x hcx
    have hBne : B.isEmpty = false := by
      cases hBv : B with
      | nil => rw [hBv] at hcx; simp at hcx
      | cons _ _ => simp
    have h1 : B.reverse.head? = some c := by rw [hcx]; rfl
    rw [List.head?_reverse] at h1
    have h2 : A.reverse.getLast? = some c := by
      rw [← getLast?_dropWhile hBne, ← hB]
      exact h1
    rw [List.getLast?_reverse] at h2
    cases hAv : A with
    | nil => rw [hAv] at h2; simp at h2
    | cons a t =>
      rw [hAv] at h2
      simp at h2
      subst h2
      exact head_dropWhile_false (hA.symm.trans hAv)
  rw [hstep1, List.reverse_reverse, hBhead]

/-- Stripping commutes with uppercasing (uppercasing preserves whitespace). -/
theorem pyStripL_upperL (l : List Char) : pyStripL (upperL l) = upperL (pyStripL l) := by
  have hpred : (fun c => isSpaceP (upChar c)) = isSpaceP := by
    funext c
    exact isSpaceP_upChar c
  have hdw : ∀ m : List Char, (m.map upChar).dropWhile isSpaceP =
      (m.dropWhile isSpaceP).map upChar := by
    intro m
    rw [List.dropWhile_map]
    have : (isSpaceP ∘ upChar) = isSpaceP := by
      funext c
      simp [Function.comp, isSpaceP_upChar]
    rw [this]
  unfold pyStripL upperL
  rw [hdw l, ← List.map_reverse, hdw, List.map_reverse]

/-!
## Extraction lemmas
-/

/-- A prefix-number match is a prefix of its input. -/
theorem matchNumAt_take {s m : List Char} (h : matchNumAt s = some m) : ∃ n, m = s.take n := by
  unfold matchNumAt at h
  dsimp only at h
  split_ifs at h with h1 h2
  exact ⟨_, (Option.some.inj h).symm⟩

/-- Characters of pattern-5 matches come from the input. -/
theorem scanNumAux_subset :
    ∀ (n : Nat) (s m : List Char), m ∈ scanNumAux n s → ∀ c ∈ m, c ∈ s := by
  intro n
  induction n with
  | zero => intro s m h; simp [scanNumAux] at h
  | succ k ih =>
    intro s m h c hc
    cases s with
    | nil => simp [scanNumAux] at h
    | cons a rest =>
      rw [scanNumAux] at h
      cases hm : matchNumAt (a :: rest) with
      | some mm =>
        rw [hm] at h
        rcases List.mem_cons.mp h with rfl | htail
        · rcases matchNumAt_take hm with ⟨nn, rfl⟩
          exact List.take_subset _ _ hc
        · exact List.drop_subset _ _ (ih _ _ htail c hc)
      | none =>
        rw [hm] at h
        exact List.mem_cons_of_mem a (ih _ _ h c hc)

/-- Characters of a lazy capture come from the accumulated prefix or the
remaining input. -/
theorem lazyFind_subset (ok : List Char → Bool) :
    ∀ (s pre m : List Char), lazyFind ok pre s = some m → ∀ c ∈ m, c ∈ pre ∨ c ∈ s := by
  intro s
  induction s with
  | nil => intro pre m h; simp [lazyFind] at h
  | cons a t ih =>
    intro pre m h c hc
    unfold lazyFind at h
    split at h
    · cases h
      exact Or.inl hc
    · rcases ih _ _ h c hc with hp | ht
      · rcases List.mem_append.mp hp with hp' | ha
        · exact Or.inl hp'
        · simp at ha
          exact Or.inr (ha ▸ List.mem_cons_self a t)
      · exact Or.inr (List.mem_cons_of_mem a ht)

/-- Characters of every rule match come from the input string. -/
theorem allRuleMatches_subset {s m : List Char} (h : m ∈ allRuleMatches s) :
    ∀ c ∈ m, c ∈ s := by
  intro c hc
  unfold allRuleMatches at h
  simp only [List.mem_append] at h
  rcases h with ((((h1 | h2) | h3) | h4) | h5) | h6
  · unfold rule1Matches at h1
    cases hm : matchNumAt s with
    | some mm =>
      rw [hm] at h1
      simp at h1
      subst h1
      rcases matchNumAt_take hm with ⟨nn, rfl⟩
      exact List.take_subset _ _ hc
    | none => rw [hm] at h1; simp at h1
  · unfold rule2Matches at h2
    cases hf : lazyFind dollarUnderscoreOK [] s with
    | some mm =>
      rw [hf] at h2
      simp at h2
      subst h2
      rcases lazyFind_subset _ _ _ _ hf c hc with hp | hs
      · simp at hp
      · exact hs
    | none => rw [hf] at h2; simp at h2
  · unfold rule3Matches at h3
    cases hf : lazyFind parenTailOK [] s with
    | some mm =>
      rw [hf] at h3
      simp at h3
      subst h3
      rcases lazyFind_subset _ _ _ _ hf c hc with hp | hs
      · simp at hp
      · exact hs
    | none => rw [hf] at h3; simp at h3
  · unfold rule4Matches at h4
    cases hf : lazyFind descTailOK [] s with
    | some mm =>
      rw [hf] at h4
      simp at h4
      subst h4
      rcases lazyFind_subset _ _ _ _ hf c hc with hp | hs
      · simp at hp
      · exact hs
    | none => rw [hf] at h4; simp at h4
  · exact scanNumAux_subset _ _ _ h5 c hc
  · unfold rule6Matches at h6
    dsimp only at h6
    split_ifs at h6 with hlen
    · simp at h6
      subst h6
      exact List.takeWhile_subset _ (List.take_subset _ _ hc)
    · simp at h6

/-- Characters of a stripped list come from the input. -/
theorem pyStripL_subset (l : List Char) : pyStripL l ⊆ l := by
  intro c hc
  unfold pyStripL at hc
  rw [List.mem_reverse] at hc
  have h1 : c ∈ (l.dropWhile isSpaceP).reverse :=
    List.dropWhile_subset (l := (l.dropWhile isSpaceP).reverse) isSpaceP hc
  rw [List.mem_reverse] at h1
  exact List.dropWhile_subset (l := l) isSpaceP h1

/-- Fuel irrelevance for first-occurrence deduplication. -/
theorem firstDedupAux_eq : ∀ (n : Nat) (l : List String), l.length ≤ n →
    firstDedupAux n l = firstDedup l := by
  intro n
  induction n using Nat.strong_induction_on with
  | _ n ih =>
    intro l h
    cases l with
    | nil => cases n <;> rfl
    | cons x t =>
      cases n with
      | zero => simp at h
      | succ k =>
        have hk : t.length ≤ k := Nat.le_of_succ_le_succ h
        rw [firstDedupAux,
          ih k (Nat.lt_succ_self k) _ (le_trans (List.length_filter_le _ _) hk)]
        show _ = firstDedupAux (x :: t).length (x :: t)
        rw [List.length_cons, firstDedupAux,
          ih t.length (Nat.lt_succ_of_le hk) _ (List.length_filter_le _ _)]

/-- Unfolding equation of first-occurrence deduplication. -/
theorem firstDedup_cons (x : String) (t : List String) :
    firstDedup (x :: t) = x :: firstDedup (t.filter (fun y => y != x)) := by
  show firstDedupAux (t.length + 1) (x :: t) = _
  rw [firstDedupAux, firstDedupAux_eq _ _ (List.length_filter_le _ _)]

/-- First-occurrence deduplication only returns input elements. -/
theorem firstDedupAux_subset : ∀ (n : Nat) (l : List String), firstDedupAux n l ⊆ l := by
  intro n
  induction n with
  | zero => intro l x hx; simp [firstDedupAux] at hx
  | succ k ih =>
    intro l x hx
    cases l with
    | nil => simp [firstDedupAux] at hx
    | cons a t =>
      rw [firstDedupAux] at hx
      rcases List.mem_cons.mp hx with rfl | hx'
      · exact List.mem_cons_self _ _
      · exact List.mem_cons_of_mem _ (List.mem_of_mem_filter (ih _ hx'))

/-- First-occurrence deduplication only returns input elements. -/
theorem firstDedup_subset (l : List String) : firstDedup l ⊆ l := firstDedupAux_subset _ _

/-- First-occurrence deduplication returns a duplicate-free list. -/
theorem firstDedup_nodup : ∀ (n : Nat) (l : List String), l.length ≤ n →
    (firstDedupAux n l).Nodup := by
  intro n
  induction n with
  | zero => intro l h; exact List.nodup_nil
  | succ k ih =>
    intro l h
    cases l with
    | nil => exact List.nodup_nil
    | cons x t =>
      rw [firstDedupAux]
      refine List.nodup_cons.mpr ⟨?_, ih _ (le_trans (List.length_filter_le _ _)
        (Nat.le_of_succ_le_succ h))⟩
      intro hx
      have := List.mem_filter.mp (firstDedupAux_subset _ _ hx)
      simp at this

/-- First-occurrence deduplication is empty only on the empty list. -/
theorem firstDedup_eq_nil : ∀ l : List String, firstDedup l = [] → l = [] := by
  intro l h
  cases l with
  | nil => rfl
  | cons x t => rw [firstDedup_cons] at h; cases h

/-- The accumulation loop of the extractor computes first-occurrence
deduplication of the stripped, length-filtered matches. -/
theorem foldl_addUnique_eq : ∀ (l : List (List Char)) (acc : List String),
    l.foldl addUnique acc =
      acc ++ firstDedup ((prepCands l).filter (fun c => decide (c ∉ acc))) := by
  intro l
  induction l with
  | nil => intro acc; simp [prepCands, firstDedup, firstDedupAux]
  | cons m t ih =>
    intro acc
    rw [List.foldl_cons]
    by_cases hlen : 4 ≤ (⟨pyStripL m⟩ : String).length
    · have hprep : prepCands (m :: t) = (⟨pyStripL m⟩ : String) :: prepCands t := by
        simp only [prepCands, List.map_cons, List.filter_cons]
        simp only [decide_eq_true_eq]
        rw [if_pos hlen]
      by_cases hmem : (⟨pyStripL m⟩ : String) ∈ acc
      · have hau : addUnique acc m = acc := by
          unfold addUnique
          rw [if_neg]
          simp [hmem]
        rw [hau, ih, hprep]
        congr 2
        rw [List.filter_cons]
        simp [hmem]
      · have hau : addUnique acc m = acc ++ [⟨pyStripL m⟩] := by
          unfold addUnique
          rw [if_pos ⟨hlen, hmem⟩]
        rw [hau, ih, hprep]
        rw [List.filter_cons]
        have hc : decide ((⟨pyStripL m⟩ : String) ∉ acc) = true := by simp [hmem]
        rw [hc]
        simp only [if_pos]
        rw [firstDedup_cons]
        have hff : ((prepCands t).filter (fun c => decide (c ∉ acc))).filter
              (fun y => y != (⟨pyStripL m⟩ : String)) =
            (prepCands t).filter (fun c => decide (c ∉ acc ++ [⟨pyStripL m⟩])) := by
          rw [List.filter_filter]
          apply List.filter_congr
          intro y _
          by_cases hyx : y = (⟨pyStripL m⟩ : String) <;> by_cases hya : y ∈ acc <;>
            simp [hyx, hya, List.mem_append]
        rw [hff, List.append_assoc]
        rfl
    · have hau : addUnique acc m = acc := by
        unfold addUnique
        rw [if_neg (fun hand => hlen hand.1)]
      have hprep : prepCands (m :: t) = prepCands t := by
        simp only [prepCands, List.map_cons, List.filter_cons]
        simp only [decide_eq_true_eq]
        rw [if_neg hlen]
      rw [hau, ih, hprep]

/-- First-occurrence deduplication preserves emptiness. -/
theorem firstDedup_isEmpty (l : List String) : (firstDedup l).isEmpty = l.isEmpty := by
  cases l with
  | nil => rfl
  | cons x t => rw [firstDedup_cons]; rfl

/-- The full extractor, characterised: first-occurrence dedup of the stripped
length-filtered matches (or the alphanumeric fallback when no rule produced
a candidate), truncated to three entries. -/
theorem extractFromStem_eq (u : List Char) :
    extractFromStem u =
      (if (prepCands (allRuleMatches u)).isEmpty then
        (if 4 ≤ (u.filter isAlnumAZ).length then [(⟨u.filter isAlnumAZ⟩ : String)] else [])
      else firstDedup (prepCands (allRuleMatches u))).take 3 := by
  have hfold : (allRuleMatches u).foldl addUnique [] =
      firstDedup (prepCands (allRuleMatches u)) := by
    rw [foldl_addUnique_eq]
    simp only [List.nil_append]
    congr 1
    have : ∀ c : String, (decide (c ∉ ([] : List String))) = true := by simp
    rw [List.filter_congr (fun c _ => this c), List.filter_true]
  unfold extractFromStem
  dsimp only
  rw [hfold, firstDedup_isEmpty]

/-- Characters of an uppercased list are fixed by uppercasing. -/
theorem upChar_fix_of_mem_upperL {w : List Char} {x : Char} (h : x ∈ upperL w) :
    upChar x = x := by
  rcases List.mem_map.mp h with ⟨a, _, rfl⟩
  exact upChar_idem a

/-- A string whose characters are fixed by uppercasing is fixed by
uppercasing. -/
theorem upperStr_fix_of_chars {l : List Char} (h : ∀ x ∈ l, upChar x = x) :
    upperStr ⟨l⟩ = ⟨l⟩ := by
  show (⟨upperL l⟩ : String) = ⟨l⟩
  have : upperL l = l := by
    unfold upperL
    rw [List.map_congr_left h]
    exact List.map_id l
  rw [this]

/-- Every extracted candidate has length at least 4 and draws its characters
from the uppercased stem. -/
theorem mem_extract_shape {f : String} {c : String}
    (h : c ∈ extract_part_numbers_from_filename f) :
    4 ≤ c.length ∧ (∀ x ∈ c.data, x ∈ upperL (pathStem f)) := by
  unfold extract_part_numbers_from_filename at h
  rw [extractFromStem_eq] at h
  have h' := List.take_subset _ _ h
  split_ifs at h' with hemp hfb
  · simp at h'
    subst h'
    refine ⟨hfb, ?_⟩
    intro x hx
    exact List.mem_of_mem_filter hx
  · simp at h'
  · have h2 := firstDedup_subset _ h'
    unfold prepCands at h2
    rcases List.mem_filter.mp h2 with ⟨h3, h4⟩
    rcases List.mem_map.mp h3 with ⟨m, hm, rfl⟩
    refine ⟨by simpa using h4, ?_⟩
    intro x hx
    exact allRuleMatches_subset hm x (pyStripL_subset _ hx)

/-- Extraction output is duplicate-free. -/
theorem extract_nodup (f : String) : (extract_part_numbers_from_filename f).Nodup := by
  unfold extract_part_numbers_from_filename
  rw [extractFromStem_eq]
  apply List.Nodup.sublist (List.take_sublist _ _)
  split_ifs with hemp hfb
  · exact List.nodup_singleton _
  · exact List.nodup_nil
  · exact firstDedup_nodup _ _ le_rfl

/-- C5: the extractor returns at most 3 candidates, without duplicates, each
at least 4 characters long and upper-cased, ordered as the first-occurrence
dedup of the rule outputs (with the cleaned-up whole-string fallback when
no rule matched); a short pure-numeric filename yields the empty list, and
extraction is a total function. -/
theorem extraction_output_well_formed :
    (∀ f : String,
      (extract_part_numbers_from_filename f).length ≤ 3 ∧
      (extract_part_numbers_from_filename f).Nodup ∧
      (∀ c ∈ extract_part_numbers_from_filename f, 4 ≤ c.length ∧ upperStr c = c) ∧
      extract_part_numbers_from_filename f =
        (if (prepCands (allRuleMatches (upperL (pathStem f)))).isEmpty then
          (if 4 ≤ ((upperL (pathStem f)).filter isAlnumAZ).length then
            [(⟨(upperL (pathStem f)).filter isAlnumAZ⟩ : String)] else [])
        else firstDedup (prepCands (allRuleMatches (upperL (pathStem f))))).take 3) ∧
    extract_part_numbers_from_filename "12.jpg" = [] := by
  refine ⟨fun f => ⟨?_, extract_nodup f, ?_, ?_⟩, by decide⟩
  · unfold extract_part_numbers_from_filename
    rw [extractFromStem_eq]
    exact List.length_take_le 3 _
  · intro c hc
    rcases mem_extract_shape hc with ⟨hlen, hchars⟩
    exact ⟨hlen, upperStr_fix_of_chars (fun x hx => upChar_fix_of_mem_upperL (hchars x hx))⟩
  · unfold extract_part_numbers_from_filename
    rw [extractFromStem_eq]

/-- Witness for C5 at a filename with three candidates. -/
theorem extraction_output_well_formed_witness :
    4 ≤ ("1234" : String).length ∧ upperStr "1234" = "1234" :=
  (extraction_output_well_formed.1 "1234_5678_9.jpg").2.2.1 "1234" (by decide)

/-- A nonempty digit string matches trailing-digits-at-end. -/
theorem dollarDigits_true {d : List Char} (hd : d ≠ []) (hdd : d.all isDigitP = true) :
    dollarDigits d = true := by
  unfold dollarDigits
  cases hl : d.getLast? with
  | none => rw [List.getLast?_eq_none_iff] at hl; exact absurd hl hd
  | some x =>
    have hx : isDigitP x = true := List.all_eq_true.mp hdd x (List.mem_of_getLast?_eq_some hl)
    have hxn : (some x == some '\n' : Bool) = false := by
      apply beq_eq_false_iff_ne.mpr
      intro hcontra
      injection hcontra with h'
      subst h'
      exact absurd hx (by decide)
    rw [hxn]
    show (!d.isEmpty && d.all isDigitP) = true
    cases d with
    | nil => exact absurd rfl hd
    | cons a t => simp [hdd]

/-- A string containing a non-digit, non-newline character never matches
trailing-digits-at-end. -/
theorem dollarDigits_false_of_mem {X : List Char} {c : Char} (hc : c ∈ X)
    (hcd : isDigitP c = false) (hcn : c ≠ '\n') : dollarDigits X = false := by
  unfold dollarDigits
  have hcore : c ∈ (if (X.getLast? == some '\n') = true then X.dropLast else X) := by
    split_ifs with hlast
    · have hXne : X ≠ [] := by rintro rfl; simp at hc
      have hdec := List.dropLast_append_getLast hXne
      have hlast' : X.getLast hXne = '\n' := by
        have := beq_iff_eq.mp hlast
        have hg := List.getLast?_eq_getLast X hXne
        rw [hg] at this
        injection this
      rcases List.mem_append.mp (hdec ▸ hc) with h1 | h2
      · exact h1
      · simp at h2
        rw [h2, hlast'] at hcn
        exact absurd rfl hcn
    · exact hc
  cases hall : (if (X.getLast? == some '\n') = true then X.dropLast else X).all isDigitP with
  | false =>
    dsimp only
    rw [hall, Bool.and_false]
  | true => exact absurd (List.all_eq_true.mp hall c hcore) (by simp [hcd])

/-- When the guard rejects every split inside `r₂` and accepts exactly the
tail, the lazy scanner captures the whole of `r₂`. -/
theorem lazyFind_exact (ok : List Char → Bool) (tail : List Char) (htn : tail ≠ [])
    (htl : ok tail = true) :
    ∀ (r₂ pre : List Char), (pre = [] → r₂ ≠ []) → (∀ c ∈ pre, c ≠ '\n') →
    (∀ c ∈ r₂, c ≠ '\n') →
    (∀ r', r' ≠ [] → r' <:+ r₂ → ok (r' ++ tail) = false) →
    lazyFind ok pre (r₂ ++ tail) = some (pre ++ r₂) := by
  intro r₂
  induction r₂ with
  | nil =>
    intro pre hne hpnl _ _
    have hpre : pre ≠ [] := fun h => hne h rfl
    cases htail : tail with
    | nil => exact absurd htail htn
    | cons a t =>
      rw [htail] at htl
      show lazyFind ok pre ([] ++ (a :: t)) = some (pre ++ [])
      rw [List.nil_append, List.append_nil]
      unfold lazyFind
      rw [if_pos]
      have h1 : pre.isEmpty = false := by
        cases pre with
        | nil => exact absurd rfl hpre
        | cons _ _ => rfl
      have h2 : pre.all (fun x => decide (x ≠ '\n')) = true :=
        List.all_eq_true.mpr (fun c hc => by simp [hpnl c hc])
      rw [h1, h2, htl]
      rfl
  | cons a r' ih =>
    intro pre hne hpnl hrnl hint
    show lazyFind ok pre (a :: (r' ++ tail)) = some (pre ++ a :: r')
    unfold lazyFind
    rw [if_neg]
    · have h2 := ih (pre ++ [a]) (by simp)
        (fun c hc => by
          rcases List.mem_append.mp hc with h | h
          · exact hpnl c h
          · simp at h
            rw [h]
            exact hrnl a (List.mem_cons_self a r'))
        (fun c hc => hrnl c (List.mem_cons_of_mem a hc))
        (fun x hx hsfx => hint x hx (hsfx.trans (List.suffix_cons a r')))
      rw [h2]
      simp
    · have hfalse := hint (a :: r') (by simp) (List.suffix_refl _)
      rw [List.cons_append] at hfalse
      simp [hfalse]

/-- When the guard rejects every nonempty suffix, the lazy scanner fails. -/
theorem lazyFind_none (ok : List Char → Bool) :
    ∀ (s pre : List Char), (∀ rest, rest ≠ [] → rest <:+ s → ok rest = false) →
    lazyFind ok pre s = none := by
  intro s
  induction s with
  | nil => intro pre _; rfl
  | cons a t ih =>
    intro pre h
    unfold lazyFind
    rw [if_neg]
    · exact ih _ (fun rest hne hsfx => h rest hne (hsfx.trans (List.suffix_cons a t)))
    · have := h (a :: t) (by simp) (List.suffix_refl _)
      simp [this]

/-- On a stem formed of a remainder, an underscore and trailing digits, rule 2
captures exactly the raw remainder. -/
theorem rule2_raw_remainder (r d : List Char) (hr : r ≠ []) (hrnl : ∀ c ∈ r, c ≠ '\n')
    (hd : d ≠ []) (hdd : d.all isDigitP = true) :
    rule2Matches (r ++ '_' :: d) = [r] := by
  have htl : dollarUnderscoreOK ('_' :: d) = true := dollarDigits_true hd hdd
  have hint : ∀ r', r' ≠ [] → r' <:+ r → dollarUnderscoreOK (r' ++ '_' :: d) = false := by
    intro r' hne hsfx
    cases r' with
    | nil => exact absurd rfl hne
    | cons c x =>
      rw [List.cons_append]
      by_cases hcu : c = '_'
      · subst hcu
        show dollarDigits (x ++ '_' :: d) = false
        exact dollarDigits_false_of_mem (c := '_') (by simp) (by decide) (by decide)
      · unfold dollarUnderscoreOK
        split
        next t heq =>
          exfalso
          injection heq with hh _
          exact hcu hh
        next => rfl
  have hmain := lazyFind_exact dollarUnderscoreOK ('_' :: d) (by simp) htl r []
    (fun _ => hr) (by simp) hrnl hint
  simp only [List.nil_append] at hmain
  unfold rule2Matches
  rw [hmain]
  rfl

/-- The parenthesised-digits tail accepts an opening parenthesis, digits and
a closing parenthesis. -/
theorem parenTailOK_true {d : List Char} (hd : d ≠ []) (hdd : d.all isDigitP = true) :
    parenTailOK ('(' :: (d ++ [')'])) = true := by
  have h1 : ('(' :: (d ++ [')'])).getLast? = some ')' := by
    rw [show ('(' :: (d ++ [')'])) = ('(' :: d) ++ [')'] from rfl, List.getLast?_concat]
  unfold parenTailOK
  rw [h1]
  have h2 : ((some ')' : Option Char) == some '\n') = false := by decide
  rw [h2]
  dsimp only
  rw [if_neg (show ¬(false = true) by decide)]
  rw [List.dropWhile_cons_of_neg (by decide)]
  split
  next m heq =>
    have hm : d ++ [')'] = m := by injection heq
    subst hm
    rw [List.getLast?_concat, List.dropLast_concat]
    have h3 : ((some ')' : Option Char) == some ')') = true := by decide
    rw [h3]
    cases d with
    | nil => exact absurd rfl hd
    | cons a t => simp [hdd]
  next hno =>
    exact absurd (hno (d ++ [')']) rfl) not_false

/-- The parenthesised-digits tail rejects any rest starting with a non-space
character other than an opening parenthesis. -/
theorem parenTailOK_false_mid {x : List Char} {c : Char} {d : List Char}
    (hcs : isSpaceP c = false) (hcp : c ≠ '(') :
    parenTailOK (c :: (x ++ '(' :: (d ++ [')']))) = false := by
  have h1 : (c :: (x ++ '(' :: (d ++ [')']))).getLast? = some ')' := by
    rw [show (c :: (x ++ '(' :: (d ++ [')']))) = (c :: (x ++ '(' :: d)) ++ [')'] from by simp,
      List.getLast?_concat]
  unfold parenTailOK
  rw [h1]
  have h2 : ((some ')' : Option Char) == some '\n') = false := by decide
  rw [h2]
  dsimp only
  rw [if_neg (show ¬(false = true) by decide)]
  rw [List.dropWhile_cons_of_neg (by simp [hcs])]
  split
  next m heq =>
    exfalso
    injection heq with hh _
    exact hcp hh
  next => rfl

/-- On a stem formed of a remainder and a parenthesised digit group, rule 3
captures exactly the raw remainder. -/
theorem rule3_raw_remainder (r d : List Char) (hr : r ≠ [])
    (hrc : ∀ c ∈ r, c ≠ '\n' ∧ isSpaceP c = false ∧ c ≠ '(')
    (hd : d ≠ []) (hdd : d.all isDigitP = true) :
    rule3Matches (r ++ '(' :: (d ++ [')'])) = [r] := by
  have htl := parenTailOK_true hd hdd
  have hint : ∀ r', r' ≠ [] → r' <:+ r → parenTailOK (r' ++ '(' :: (d ++ [')'])) = false := by
    intro r' hne hsfx
    cases r' with
    | nil => exact absurd rfl hne
    | cons c x =>
      have hc := hrc c (hsfx.subset (List.mem_cons_self c x))
      rw [List.cons_append]
      exact parenTailOK_false_mid hc.2.1 hc.2.2
  have hmain := lazyFind_exact parenTailOK ('(' :: (d ++ [')'])) (by simp) htl r []
    (fun _ => hr) (by simp) (fun c hc => (hrc c hc).1) hint
  simp only [List.nil_append] at hmain
  unfold rule3Matches
  rw [hmain]
  rfl

/-- The descriptive-suffix tail rejects any string without lowercase letters. -/
theorem descTailOK_false {s : List Char} (hs : ∀ c ∈ s, c ∉ lcsChars) :
    descTailOK s = false := by
  cases hdt : descTailOK s with
  | false => rfl
  | true =>
    exfalso
    unfold descTailOK at hdt
    dsimp only at hdt
    rw [List.any_eq_true] at hdt
    rcases hdt with ⟨sfx, hsfx, hbeq⟩
    have hcore : (if (s.getLast? == some '\n') = true then s.dropLast else s) = sfx :=
      beq_iff_eq.mp hbeq
    have key : ∀ sf ∈ descSuffixes, ∃ c, c ∈ sf ∧ c ∈ lcsChars := by decide
    rcases key sfx hsfx with ⟨c, hc1, hc2⟩
    rw [← hcore] at hc1
    have hcs : c ∈ s := by
      split_ifs at hc1 with h
      · exact List.dropLast_subset s hc1
      · exact hc1
    exact hs c hcs hc2

/-- Rule 4 produces nothing on a string without lowercase letters. -/
theorem rule4_never_on_upper {s : List Char} (hs : ∀ c ∈ s, c ∉ lcsChars) :
    rule4Matches s = [] := by
  unfold rule4Matches
  rw [lazyFind_none descTailOK s []
    (fun rest _ hsfx => descTailOK_false (fun c hc => hs c (hsfx.subset hc)))]
  rfl

/-- C6 counterexample: the trailing-suffix rules do not re-run extraction on
the stripped remainder. For the filename `AB_CD_2.jpg` the trailing-digits
rule contributes the raw remainder `AB_CD` even though re-running
extraction on `AB_CD` yields `["ABCD"]` (which does not contain `AB_CD`);
for `XY_ZW_detail.jpg` the descriptive-suffix rule contributes nothing at
all (re-extraction of the remainder would yield `["XYZW"]`), and the only
candidate is the whole-string fallback. -/
theorem extraction_no_reextraction_counterexample :
    extract_part_numbers_from_filename "AB_CD_2.jpg" = ["AB_CD"] ∧
    extractFromStem "AB_CD".data = ["ABCD"] ∧
    decide (("AB_CD" : String) ∈ extractFromStem "AB_CD".data) = false ∧
    extract_part_numbers_from_filename "XY_ZW_detail.jpg" = ["XYZWDETAIL"] ∧
    extractFromStem "XY_ZW".data = ["XYZW"] := by
  refine ⟨by decide, by decide, by decide, by decide, by decide⟩

/-- C6 amended: for a stem of the form remainder-underscore-digits the
trailing-digits rule contributes the raw remainder itself as its sole
candidate, without re-applying extraction to it; the parenthesised-digits
rule likewise captures its raw remainder; and the descriptive-suffix rule
never matches, because its lowercase literal suffixes cannot occur in the
upper-cased stem. -/
theorem suffix_rules_capture_raw_remainder :
    (∀ r d : List Char, r ≠ [] → (∀ c ∈ r, c ≠ '\n') → d ≠ [] →
      d.all isDigitP = true → rule2Matches (r ++ '_' :: d) = [r]) ∧
    (∀ r d : List Char, r ≠ [] →
      (∀ c ∈ r, c ≠ '\n' ∧ isSpaceP c = false ∧ c ≠ '(') → d ≠ [] →
      d.all isDigitP = true → rule3Matches (r ++ '(' :: (d ++ [')'])) = [r]) ∧
    (∀ w : List Char, rule4Matches (upperL w) = []) :=
  ⟨rule2_raw_remainder, rule3_raw_remainder,
   fun _ => rule4_never_on_upper (fun _ hc => upperL_notin_lcs hc)⟩

/-- Witness for the amended C6 at concrete remainders. -/
theorem suffix_rules_capture_raw_remainder_witness :
    rule2Matches ("AB_CD".data ++ '_' :: "2".data) = ["AB_CD".data] ∧
    rule3Matches ("AB".data ++ '(' :: ("2".data ++ [')'])) = ["AB".data] ∧
    rule4Matches (upperL "xy_zw_detail".data) = [] :=
  ⟨suffix_rules_capture_raw_remainder.1 _ _ (by decide) (by decide) (by decide) (by decide),
   suffix_rules_capture_raw_remainder.2.1 _ _ (by decide) (by decide) (by decide) (by decide),
   suffix_rules_capture_raw_remainder.2.2 _⟩

/-!
## Resolver lemmas
-/

/-- Every fuzzy-loop result has confidence 0.6, the fuzzy method tag, no
interchange mapping, and a part number found by the `LIKE`-query of one of
the tried variations. -/
theorem tryVariations_shape (db : Db) (p : String) :
    ∀ (l : List String) (fm : MatchInfo), tryVariations db p l = some fm →
    fm.confidence = mkRat 6 10 ∧ fm.method = "fuzzy_match" ∧ fm.interchange = none ∧
    fm.part_number ∈ db.master ∧
    ∃ v ∈ l, v ≠ p ∧ likeFirst db.master v = some fm.part_number := by
  intro l
  induction l with
  | nil => intro fm h; simp [tryVariations] at h
  | cons v rest ih =>
    intro fm h
    unfold tryVariations at h
    split_ifs at h with hvp
    · rcases ih fm h with ⟨h1, h2, h3, h4, w, hw, hwp, hwl⟩
      exact ⟨h1, h2, h3, h4, w, List.mem_cons_of_mem _ hw, hwp, hwl⟩
    · cases hlf : likeFirst db.master v with
      | some row =>
        rw [hlf] at h
        cases h
        have hlf' : List.find? (fun r => likeMatch ('%' :: v.data ++ ['%']) r.data)
            db.master = some row := hlf
        exact ⟨rfl, rfl, rfl, List.mem_of_find?_eq_some hlf',
          v, List.mem_cons_self _ _, hvp, hlf⟩
      | none =>
        rw [hlf] at h
        rcases ih fm h with ⟨h1, h2, h3, h4, w, hw, hwp, hwl⟩
        exact ⟨h1, h2, h3, h4, w, List.mem_cons_of_mem _ hw, hwp, hwl⟩

/-- Shape of a successful `_find_fuzzy_match` result. -/
theorem find_fuzzy_shape {db : Db} {p : String} {fm : MatchInfo}
    (h : find_fuzzy_match db p = some fm) :
    db.connected = true ∧ fm.confidence = mkRat 6 10 ∧ fm.method = "fuzzy_match" ∧
    fm.interchange = none ∧ fm.part_number ∈ db.master ∧
    ∃ v ∈ variationsOf p, v ≠ p ∧ likeFirst db.master v = some fm.part_number := by
  unfold find_fuzzy_match at h
  split_ifs at h with hc
  rcases tryVariations_shape db p _ fm h with ⟨h1, h2, h3, h4, h5⟩
  exact ⟨hc, h1, h2, h3, h4, h5⟩

/-- Every result of the best-match loop is a direct match at 0.95, an
interchange match at 0.85, or a fuzzy match at 0.6. -/
theorem find_best_aux_shape (db : Db) (cache : Cache) :
    ∀ (l : List String) (best : Option MatchInfo),
    (∀ b, best = some b → b.method = "fuzzy_match" ∧ b.confidence = mkRat 6 10 ∧
      b.interchange = none) →
    ∀ mi, find_best_aux db cache l best = some mi → MatchShape mi := by
  intro l
  induction l with
  | nil =>
    intro best hbest mi h
    rw [find_best_aux] at h
    rcases hbest mi h with ⟨h1, h2, h3⟩
    exact Or.inr (Or.inr ⟨h1, h2, h3⟩)
  | cons p rest ih =>
    intro best hbest mi h
    rw [find_best_aux] at h
    split_ifs at h with hcur
    · cases h
      exact Or.inl ⟨rfl, rfl, rfl⟩
    · cases hdl : dlookup cache p with
      | some mapping =>
        rw [hdl] at h
        cases h
        exact Or.inr (Or.inl ⟨rfl, rfl, mapping, rfl, rfl⟩)
      | none =>
        rw [hdl] at h
        cases hfz : find_fuzzy_match db p with
        | some fm =>
          rw [hfz] at h
          dsimp only at h
          rcases find_fuzzy_shape hfz with ⟨_, hc6, hmeth, hint, _, _⟩
          cases best with
          | none =>
            exact ih _ (fun b hb => by cases hb; exact ⟨hmeth, hc6, hint⟩) mi h
          | some b =>
            rcases hbest b rfl with ⟨hb1, hb2, hb3⟩
            dsimp only at h
            by_cases hlt : b.confidence < fm.confidence
            · rw [if_pos hlt] at h
              exact ih _ (fun b' hb' => by cases hb'; exact ⟨hmeth, hc6, hint⟩) mi h
            · rw [if_neg hlt] at h
              exact ih _ (fun b' hb' => by cases hb'; exact ⟨hb1, hb2, hb3⟩) mi h
        | none =>
          rw [hfz] at h
          dsimp only at h
          exact ih _ hbest mi h

/-- The resolution body never escapes with an exception. -/
theorem mapBody_never_error (db : Db) (cache : Cache) (f : String) :
    ∀ e, mapBody db cache f ≠ Except.error e := by
  intro e hb
  unfold mapBody at hb
  dsimp only at hb
  split_ifs at hb with h1
  cases hfb : find_best_part_match db cache (extract_part_numbers_from_filename f) with
  | some best => rw [hfb] at hb; cases hb
  | none => rw [hfb] at hb; cases hb

/-- Case analysis on the result of a resolution call: one of the terminal
record shapes of `map_filename_to_part_number`. -/
theorem map_filename_shape {db : Db} {cache : Cache} {f : String} {r : PartMappingResult}
    (hr : map_filename_to_part_number db cache f = r) :
    (r.mapping_method = "no_extraction" ∧ r.confidence_score = mkRat 0 1 ∧
      r.requires_manual_review = true) ∨
    (∃ mi, MatchShape mi ∧ r.mapping_method = mi.method ∧
      r.confidence_score = mi.confidence ∧
      r.requires_manual_review = decide (mi.confidence < mkRat 8 10)) ∨
    (r.mapping_method = "best_guess" ∧ r.confidence_score = mkRat 3 10 ∧
      r.requires_manual_review = true) := by
  unfold map_filename_to_part_number mapBody at hr
  dsimp only at hr
  split_ifs at hr with hemp
  · subst hr
    exact Or.inl ⟨rfl, rfl, rfl⟩
  · cases hfb : find_best_part_match db cache (extract_part_numbers_from_filename f) with
    | some best =>
      rw [hfb] at hr
      subst hr
      refine Or.inr (Or.inl ⟨best, ?_, rfl, rfl, rfl⟩)
      exact find_best_aux_shape db cache _ none (fun b hb => by cases hb) best hfb
    | none =>
      rw [hfb] at hr
      subst hr
      exact Or.inr (Or.inr ⟨rfl, rfl, rfl⟩)

/-- C2: resolution never propagates an exception to its caller — the body of
the `try` block always produces the returned result — and a result carrying
the error method (the exception handler's shape) always has confidence 0,
the review flag set, and an error message. -/
theorem resolver_never_raises : ∀ (db : Db) (cache : Cache) (f : String),
    mapBody db cache f = Except.ok (map_filename_to_part_number db cache f) ∧
    ((((map_filename_to_part_number db cache f).mapping_method == "error") = false) ∨
      ((map_filename_to_part_number db cache f).confidence_score = mkRat 0 1 ∧
       (map_filename_to_part_number db cache f).requires_manual_review = true ∧
       (map_filename_to_part_number db cache f).error_message.isSome = true)) := by
  intro db cache f
  refine ⟨?_, Or.inl ?_⟩
  · cases hb : mapBody db cache f with
    | ok r =>
      unfold map_filename_to_part_number
      rw [hb]
    | error e => exact absurd hb (mapBody_never_error db cache f e)
  · apply beq_eq_false_iff_ne.mpr
    rcases map_filename_shape rfl with h | ⟨mi, hshape, hm, _, _⟩ | h
    · rw [h.1]; decide
    · rcases hshape with ⟨hm1, _, _⟩ | ⟨hm1, _, _⟩ | ⟨hm1, _, _⟩ <;> rw [hm, hm1] <;> decide
    · rw [h.1]; decide

/-- C3: every result with confidence below 0.8 has the manual-review flag
set; in particular the `no_extraction`, `fuzzy_match`, `best_guess` and
`error` shapes always require review. -/
theorem review_threshold_invariant : ∀ (db : Db) (cache : Cache) (f : String),
    ((map_filename_to_part_number db cache f).confidence_score < mkRat 8 10 →
      (map_filename_to_part_number db cache f).requires_manual_review = true) ∧
    ((map_filename_to_part_number db cache f).mapping_method ∈
        (["no_extraction", "fuzzy_match", "best_guess", "error"] : List String) →
      (map_filename_to_part_number db cache f).requires_manual_review = true) := by
  intro db cache f
  rcases map_filename_shape rfl with h | ⟨mi, hshape, hm, hc, hrev⟩ | h
  · exact ⟨fun _ => h.2.2, fun _ => h.2.2⟩
  · constructor
    · intro hlt
      rw [hrev]
      rw [hc] at hlt
      exact decide_eq_true hlt
    · intro hmem
      rcases hshape with ⟨hm1, hc1, _⟩ | ⟨hm1, hc1, _⟩ | ⟨hm1, hc1, _⟩
      · exact absurd hmem (by rw [hm, hm1]; decide)
      · exact absurd hmem (by rw [hm, hm1]; decide)
      · rw [hrev, hc1]
        decide
  · exact ⟨fun _ => h.2.2, fun _ => h.2.2⟩

/-- Witness for C3: a no-extraction result (confidence 0, method in the
always-review list) and a best-guess result both require review. -/
theorem review_threshold_invariant_witness :
    (map_filename_to_part_number dbScenario [] "").requires_manual_review = true ∧
    (map_filename_to_part_number dbScenario (load_interchange_mappings dbScenario)
      "unknown_part_123.jpg").requires_manual_review = true :=
  ⟨(review_threshold_invariant dbScenario [] "").1 (by decide),
   (review_threshold_invariant dbScenario (load_interchange_mappings dbScenario)
      "unknown_part_123.jpg").2 (by decide)⟩

/-- C4: the mapping method determines the confidence score exactly: 0.95 for
`direct_match`, 0.85 for `interchange_mapping`, 0.6 for `fuzzy_match`, 0.3
for `best_guess`, and 0 for `no_extraction` and `error`. -/
theorem confidence_determined_by_method : ∀ (db : Db) (cache : Cache) (f : String),
    ((map_filename_to_part_number db cache f).mapping_method,
     (map_filename_to_part_number db cache f).confidence_score) ∈
      ([("direct_match", mkRat 95 100), ("interchange_mapping", mkRat 85 100),
        ("fuzzy_match", mkRat 6 10), ("best_guess", mkRat 3 10),
        ("no_extraction", mkRat 0 1), ("error", mkRat 0 1)] : List (String × ℚ)) := by
  intro db cache f
  rcases map_filename_shape rfl with h | ⟨mi, hshape, hm, hc, _⟩ | h
  · rw [h.1, h.2.1]; simp
  · rcases hshape with ⟨hm1, hc1, _⟩ | ⟨hm1, hc1, _⟩ | ⟨hm1, hc1, _⟩ <;>
      rw [hm, hc, hm1, hc1] <;> simp
  · rw [h.1, h.2.1]; simp

/-- A candidate the oracle reports active wins immediately, whatever the
recorded best. -/
theorem find_best_aux_direct (db : Db) (cache : Cache) (c : String) (rest : List String)
    (best : Option MatchInfo) (hcur : is_current_part_number db c = true) :
    find_best_aux db cache (c :: rest) best =
      some { part_number := c, confidence := mkRat 95 100, method := "direct_match" } := by
  simp only [find_best_aux]
  rw [if_pos hcur]

/-- A cached candidate the oracle missed wins immediately, whatever the
recorded best. -/
theorem find_best_aux_inter (db : Db) (cache : Cache) (c : String) (rest : List String)
    (best : Option MatchInfo) (m : InterchangeMapping)
    (hcur : is_current_part_number db c = false) (hdl : dlookup cache c = some m) :
    find_best_aux db cache (c :: rest) best =
      some { part_number := m.new_part_number, confidence := mkRat 85 100,
             method := "interchange_mapping", interchange := some m } := by
  simp only [find_best_aux]
  rw [if_neg (by simp [hcur]), hdl]

/-- Candidates that are neither active nor cached only (possibly) change the
recorded best. -/
theorem find_best_aux_skip_pre (db : Db) (cache : Cache) :
    ∀ (pre l : List String) (best : Option MatchInfo),
    (∀ p ∈ pre, is_current_part_number db p = false ∧ dlookup cache p = none) →
    ∃ best', find_best_aux db cache (pre ++ l) best = find_best_aux db cache l best' := by
  intro pre
  induction pre with
  | nil => intro l best _; exact ⟨best, rfl⟩
  | cons p pre' ih =>
    intro l best hpre
    rcases hpre p (List.mem_cons_self p pre') with ⟨hc, hd⟩
    rw [List.cons_append]
    simp only [find_best_aux]
    rw [if_neg (by simp [hc]), hd]
    dsimp only
    cases hfz : find_fuzzy_match db p with
    | some fm =>
      dsimp only
      exact ih l _ (fun q hq => hpre q (List.mem_cons_of_mem p hq))
    | none =>
      exact ih l best (fun q hq => hpre q (List.mem_cons_of_mem p hq))

/-- A recorded fuzzy best at confidence 0.6 survives any run of candidates
that are neither active nor cached. -/
theorem find_best_aux_keep (db : Db) (cache : Cache) :
    ∀ (l : List String) (b : MatchInfo), b.confidence = mkRat 6 10 →
    (∀ p ∈ l, is_current_part_number db p = false ∧ dlookup cache p = none) →
    find_best_aux db cache l (some b) = some b := by
  intro l
  induction l with
  | nil => intro b _ _; rfl
  | cons p rest ih =>
    intro b hb hl
    rcases hl p (List.mem_cons_self p rest) with ⟨hc, hd⟩
    simp only [find_best_aux]
    rw [if_neg (by simp [hc]), hd]
    dsimp only
    cases hfz : find_fuzzy_match db p with
    | some fm =>
      dsimp only
      have hfm6 : fm.confidence = mkRat 6 10 := (find_fuzzy_shape hfz).2.1
      rw [if_neg (by rw [hb, hfm6]; decide)]
      exact ih b hb (fun q hq => hl q (List.mem_cons_of_mem p hq))
    | none => exact ih b hb (fun q hq => hl q (List.mem_cons_of_mem p hq))

/-- Candidates that are neither active nor cached nor fuzzy-matched leave the
loop state unchanged. -/
theorem find_best_aux_prefix_nofuzzy (db : Db) (cache : Cache) :
    ∀ (pre l : List String),
    (∀ p ∈ pre, is_current_part_number db p = false ∧ dlookup cache p = none ∧
      find_fuzzy_match db p = none) →
    find_best_aux db cache (pre ++ l) none = find_best_aux db cache l none := by
  intro pre
  induction pre with
  | nil => intro l _; rfl
  | cons p pre' ih =>
    intro l hpre
    rcases hpre p (List.mem_cons_self p pre') with ⟨hc, hd, hf⟩
    rw [List.cons_append]
    simp only [find_best_aux]
    rw [if_neg (by simp [hc]), hd]
    dsimp only
    rw [hf]
    exact ih l (fun q hq => hpre q (List.mem_cons_of_mem p hq))

/-- Unfolding of a resolution call when the extractor produced candidates and
the best-match search succeeded. -/
theorem map_filename_of_best {db : Db} {cache : Cache} {f : String} {best : MatchInfo}
    (hne : extract_part_numbers_from_filename f ≠ [])
    (hfb : find_best_part_match db cache (extract_part_numbers_from_filename f) = some best) :
    map_filename_to_part_number db cache f =
      { original_filename := f,
        extracted_numbers := extract_part_numbers_from_filename f,
        mapped_part_number := some best.part_number,
        confidence_score := best.confidence,
        mapping_method := best.method,
        interchange_mapping := best.interchange,
        requires_manual_review := decide (best.confidence < mkRat 8 10),
        error_message := none } := by
  unfold map_filename_to_part_number mapBody
  dsimp only
  rw [if_neg (by simpa [List.isEmpty_iff] using hne), hfb]

/-- C1: scanning candidates in extraction order, the resolver returns
immediately at the first candidate the Existence Oracle reports active
(direct match, confidence 0.95, no review), or — when the oracle misses but
the interchange cache holds the candidate — immediately with the mapping's
new part number (confidence 0.85, no review, mapping attached); the
candidates after the winning one never influence the result. -/
theorem resolver_first_match_wins :
    ∀ (db : Db) (cache : Cache) (f : String) (pre post : List String) (c : String),
    extract_part_numbers_from_filename f = pre ++ c :: post →
    (∀ p ∈ pre, is_current_part_number db p = false ∧ dlookup cache p = none) →
    (is_current_part_number db c = true →
      map_filename_to_part_number db cache f =
        { original_filename := f, extracted_numbers := pre ++ c :: post,
          mapped_part_number := some c, confidence_score := mkRat 95 100,
          mapping_method := "direct_match", interchange_mapping := none,
          requires_manual_review := false, error_message := none }) ∧
    (∀ m : InterchangeMapping, is_current_part_number db c = false →
      dlookup cache c = some m →
      map_filename_to_part_number db cache f =
        { original_filename := f, extracted_numbers := pre ++ c :: post,
          mapped_part_number := some m.new_part_number, confidence_score := mkRat 85 100,
          mapping_method := "interchange_mapping", interchange_mapping := some m,
          requires_manual_review := false, error_message := none }) := by
  intro db cache f pre post c hex hpre
  have hne : extract_part_numbers_from_filename f ≠ [] := by
    rw [hex]
    simp
  constructor
  · intro hcur
    have hfb : find_best_part_match db cache (extract_part_numbers_from_filename f) =
        some { part_number := c, confidence := mkRat 95 100, method := "direct_match" } := by
      rw [hex]
      unfold find_best_part_match
      rcases find_best_aux_skip_pre db cache pre (c :: post) none hpre with ⟨best', hb⟩
      rw [hb]
      exact find_best_aux_direct db cache c post best' hcur
    rw [map_filename_of_best hne hfb, hex]
    rfl
  · intro m hcur hdl
    have hfb : find_best_part_match db cache (extract_part_numbers_from_filename f) =
        some { part_number := m.new_part_number, confidence := mkRat 85 100,
               method := "interchange_mapping", interchange := some m } := by
      rw [hex]
      unfold find_best_part_match
      rcases find_best_aux_skip_pre db cache pre (c :: post) none hpre with ⟨best', hb⟩
      rw [hb]
      exact find_best_aux_inter db cache c post best' m hcur hdl
    rw [map_filename_of_best hne hfb, hex]
    rfl

/-- Witness for C1: a direct match and an interchange match on the sample
database. -/
theorem resolver_first_match_wins_witness :
    map_filename_to_part_number dbScenario (load_interchange_mappings dbScenario)
        "J1234567_detail.jpg" =
      { original_filename := "J1234567_detail.jpg", extracted_numbers := ["J1234567"],
        mapped_part_number := some "J1234567", confidence_score := mkRat 95 100,
        mapping_method := "direct_match", interchange_mapping := none,
        requires_manual_review := false, error_message := none } ∧
    map_filename_to_part_number dbScenario (load_interchange_mappings dbScenario)
        "OLD12345_1.jpg" =
      { original_filename := "OLD12345_1.jpg", extracted_numbers := ["OLD12345", "LD12345"],
        mapped_part_number := some "12345", confidence_score := mkRat 85 100,
        mapping_method := "interchange_mapping",
        interchange_mapping :=
          some { old_part_number := "OLD12345", new_part_number := "12345",
                 interchange_code := "" },
        requires_manual_review := false, error_message := none } :=
  ⟨(resolver_first_match_wins dbScenario (load_interchange_mappings dbScenario)
      "J1234567_detail.jpg" [] [] "J1234567" (by decide) (by simp)).1 (by decide),
   (resolver_first_match_wins dbScenario (load_interchange_mappings dbScenario)
      "OLD12345_1.jpg" [] ["LD12345"] "OLD12345" (by decide) (by simp)).2
     { old_part_number := "OLD12345", new_part_number := "12345", interchange_code := "" }
     (by decide) (by decide)⟩

/-- C10: when no candidate matches directly or via the interchange cache, the
fuzzy match found at the earliest candidate wins: every fuzzy match has
confidence 0.6 and a later one replaces the recorded best only under a
strictly-greater comparison, so it never does. -/
theorem earliest_fuzzy_wins :
    ∀ (db : Db) (cache : Cache) (f : String) (pre post : List String) (c : String)
      (fm : MatchInfo),
    extract_part_numbers_from_filename f = pre ++ c :: post →
    (∀ p ∈ extract_part_numbers_from_filename f,
      is_current_part_number db p = false ∧ dlookup cache p = none) →
    (∀ p ∈ pre, find_fuzzy_match db p = none) →
    find_fuzzy_match db c = some fm →
    map_filename_to_part_number db cache f =
      { original_filename := f, extracted_numbers := pre ++ c :: post,
        mapped_part_number := some fm.part_number, confidence_score := mkRat 6 10,
        mapping_method := "fuzzy_match", interchange_mapping := none,
        requires_manual_review := true, error_message := none } := by
  intro db cache f pre post c fm hex hall hprefz hfz
  have hne : extract_part_numbers_from_filename f ≠ [] := by
    rw [hex]
    simp
  rw [hex] at hall
  rcases find_fuzzy_shape hfz with ⟨_, hfm6, hfmm, hfmi, _, _⟩
  have hfb : find_best_part_match db cache (extract_part_numbers_from_filename f) =
      some fm := by
    rw [hex]
    unfold find_best_part_match
    rw [find_best_aux_prefix_nofuzzy db cache pre (c :: post)
      (fun p hp => ⟨(hall p (List.mem_append_left _ hp)).1,
        (hall p (List.mem_append_left _ hp)).2, hprefz p hp⟩)]
    have hc := hall c (List.mem_append_right _ (List.mem_cons_self c post))
    simp only [find_best_aux]
    rw [if_neg (by simp [hc.1]), hc.2]
    dsimp only
    rw [hfz]
    dsimp only
    exact find_best_aux_keep db cache post fm hfm6
      (fun q hq => hall q (List.mem_append_right _ (List.mem_cons_of_mem c hq)))
  rw [map_filename_of_best hne hfb, hex, hfm6, hfmm, hfmi]
  rfl

/-- Witness for C10: two candidates fuzzy-match different rows and the
earliest wins. -/
theorem earliest_fuzzy_wins_witness :
    map_filename_to_part_number
        { connected := true, master := ["XX00001234XX", "YY00005678YY"], interRows := [] }
        [] "1234_5678_9.jpg" =
      { original_filename := "1234_5678_9.jpg",
        extracted_numbers := ["1234", "1234_5678", "5678"],
        mapped_part_number := some "XX00001234XX", confidence_score := mkRat 6 10,
        mapping_method := "fuzzy_match", interchange_mapping := none,
        requires_manual_review := true, error_message := none } :=
  earliest_fuzzy_wins
    { connected := true, master := ["XX00001234XX", "YY00005678YY"], interRows := [] }
    [] "1234_5678_9.jpg" [] ["1234_5678", "5678"] "1234"
    { part_number := "XX00001234XX", confidence := mkRat 6 10, method := "fuzzy_match" }
    (by decide) (by decide) (by simp) (by decide)

/-- C7 counterexample: on `dbC7`, no fuzzy variation of the candidate `1234`
is an exact active part number, so fuzzy matching as the claim describes it
(Existence-Oracle exact lookup per variation) finds nothing — but the
source's `_find_fuzzy_match` succeeds, because its query is a substring
`LIKE` search, and it returns the matched row, not the variation. -/
theorem fuzzy_exact_oracle_counterexample :
    fuzzySpecExact dbC7 "1234" = none ∧
    find_fuzzy_match dbC7 "1234" =
      some { part_number := "ZZ00001234ZZ", confidence := mkRat 6 10,
             method := "fuzzy_match" } ∧
    is_current_part_number dbC7 "00001234" = false ∧
    is_current_part_number dbC7 "J1234" = false ∧
    is_current_part_number dbC7 "A1234" = false := by
  refine ⟨by decide, by decide, by decide, by decide, by decide⟩

/-- C7 amended: fuzzy matching tries, in order, the candidate with leading
zeros stripped, the candidate zero-filled to 8 characters, and the J- and
A-prefixed forms, skipping any variation equal to the candidate itself —
but each query is an active-part substring search (`LIKE` with the
variation between percent signs, first row wins), and the matched row is
returned as the mapped part number, with the confidence fixed at 0.6
regardless of the variation. -/
theorem fuzzy_uses_like_substring : ∀ (db : Db) (p : String),
    find_fuzzy_match db p = fuzzySpecLike db p := by
  intro db p
  unfold find_fuzzy_match fuzzySpecLike
  split_ifs with hc
  · generalize variationsOf p = l
    induction l with
    | nil => rfl
    | cons v rest ih =>
      unfold tryVariations
      by_cases hvp : v = p
      · rw [if_pos hvp]
        have hd : (decide (v ≠ p)) = false := by simp [hvp]
        rw [List.filter_cons, hd]
        simp only [Bool.false_eq_true, if_false]
        exact ih
      · rw [if_neg hvp]
        have hd : (decide (v ≠ p)) = true := by simp [hvp]
        rw [List.filter_cons, hd]
        simp only [if_true]
        rw [List.findSome?_cons]
        cases hlf : likeFirst db.master v with
        | some row => rfl
        | none => exact ih
  · rfl

/-- Lookup after overwrite-insert. -/
theorem dlookup_dinsert :
    ∀ (c : Cache) (k k' : String) (v : InterchangeMapping),
    dlookup (dinsert c k v) k' = if k' = k then some v else dlookup c k' := by
  intro c
  induction c with
  | nil =>
    intro k k' v
    by_cases h : k' = k
    · subst h
      simp [dinsert, dlookup, List.find?]
    · have h' : k ≠ k' := fun hc => h hc.symm
      simp [dinsert, dlookup, List.find?, h, h']
  | cons kv t ih =>
    intro k k' v
    obtain ⟨a, w⟩ := kv
    unfold dinsert
    by_cases ha : a = k
    · rw [if_pos ha]
      by_cases h2 : k' = k
      · subst h2
        rw [if_pos rfl]
        unfold dlookup
        rw [List.find?_cons_of_pos _ (by simp)]
        rfl
      · rw [if_neg h2]
        have hkk' : ¬(k = k') := fun hc => h2 hc.symm
        have hak' : ¬(a = k') := fun hc => h2 (ha ▸ hc).symm
        unfold dlookup
        rw [List.find?_cons_of_neg _ (by simp [hkk']),
          List.find?_cons_of_neg _ (by simp [hak'])]
    · rw [if_neg ha]
      by_cases h2 : a = k'
      · have hk'k : k' ≠ k := by
          rw [← h2]
          exact fun hc => ha hc
        rw [if_neg hk'k]
        unfold dlookup
        rw [List.find?_cons_of_pos _ (by simp [h2]),
          List.find?_cons_of_pos _ (by simp [h2])]
      · by_cases h3 : k' = k
        · rw [if_pos h3]
          unfold dlookup
          rw [List.find?_cons_of_neg _ (by simp [h2])]
          have hrec := ih k k' v
          rw [if_pos h3] at hrec
          exact hrec
        · rw [if_neg h3]
          unfold dlookup
          rw [List.find?_cons_of_neg _ (by simp [h2]),
            List.find?_cons_of_neg _ (by simp [h2])]
          have hrec := ih k k' v
          rw [if_neg h3] at hrec
          exact hrec

/-- Lookup of the cache built by the load loop: the last kept row whose
normalised old number equals the key wins. -/
theorem dlookup_foldl :
    ∀ (rows : List InterRow) (acc : Cache) (k : String),
    dlookup (rows.foldl processRow acc) k =
      match (rows.filter (fun r => rowKept r && (rowKey r == k))).getLast? with
      | some r => some (rowMapping r)
      | none => dlookup acc k := by
  intro rows
  induction rows with
  | nil => intro acc k; rfl
  | cons r rest ih =>
    intro acc k
    rw [List.foldl_cons, List.filter_cons]
    by_cases hcond : (rowKept r && (rowKey r == k)) = true
    · rw [if_pos hcond, List.getLast?_cons, ih (processRow acc r) k]
      have hparts : rowKept r = true ∧ (rowKey r == k) = true := by
        simpa [Bool.and_eq_true] using hcond
      rcases hparts with ⟨hkept, hkey⟩
      have hkeyeq : rowKey r = k := beq_iff_eq.mp hkey
      have hacc : processRow acc r = dinsert acc (rowKey r) (rowMapping r) := by
        have hkept' : (truthyOpt r.icpno && truthyOpt r.iptno) = true := hkept
        unfold processRow
        rw [if_pos hkept']
        rfl
      cases hl : (rest.filter (fun x => rowKept x && (rowKey x == k))).getLast? with
      | some x => rfl
      | none =>
        dsimp only
        rw [hacc, dlookup_dinsert, if_pos hkeyeq.symm]
        rfl
    · rw [if_neg hcond, ih (processRow acc r) k]
      have hacc : dlookup (processRow acc r) k = dlookup acc k := by
        by_cases hkept : rowKept r = true
        · have hkey : (rowKey r == k) = false := by
            cases hb : (rowKey r == k) with
            | false => rfl
            | true =>
              have : (rowKept r && (rowKey r == k)) = true := by simp [hkept, hb]
              exact absurd this hcond
          have hne : k ≠ rowKey r := by
            intro hcontra
            rw [beq_eq_false_iff_ne] at hkey
            exact hkey hcontra.symm
          have h1 : processRow acc r = dinsert acc (rowKey r) (rowMapping r) := by
            have hkept' : (truthyOpt r.icpno && truthyOpt r.iptno) = true := hkept
            unfold processRow
            rw [if_pos hkept']
            rfl
          rw [h1, dlookup_dinsert, if_neg hne]
        · have h1 : processRow acc r = acc := by
            have hkept' : ¬((truthyOpt r.icpno && truthyOpt r.iptno) = true) := hkept
            unfold processRow
            rw [if_neg hkept']
          rw [h1]
      cases hl : (rest.filter (fun x => rowKept x && (rowKey x == k))).getLast? with
      | some x => rfl
      | none =>
        dsimp only
        exact hacc

/-- Strip-then-uppercase is stable under further stripping and uppercasing. -/
theorem stripUpper_stable (s : String) :
    pyStripS (upperStr (pyStripS s)) = upperStr (pyStripS s) ∧
    upperStr (upperStr (pyStripS s)) = upperStr (pyStripS s) := by
  constructor
  · show (⟨pyStripL (upperL (pyStripL s.data))⟩ : String) = ⟨upperL (pyStripL s.data)⟩
    rw [pyStripL_upperL, pyStripL_idem]
  · show (⟨upperL (upperL (pyStripL s.data))⟩ : String) = ⟨upperL (pyStripL s.data)⟩
    rw [upperL_idem]

/-- C8: loading the interchange cache skips rows whose old or new part number
is null or empty (Python falsy); kept rows are stored under the trimmed,
upper-cased old number with trimmed, upper-cased fields, later rows
overwriting earlier ones with the same key (the lookup sees exactly the
last kept row per key); with no database connection the cache ends empty. -/
theorem interchange_cache_load_spec :
    ∀ (db : Db) (k : String),
    (dlookup (load_interchange_mappings db) k =
      if db.connected then
        match (db.interRows.filter (fun r => rowKept r && (rowKey r == k))).getLast? with
        | some r => some (rowMapping r)
        | none => none
      else none) ∧
    (∀ m : InterchangeMapping, dlookup (load_interchange_mappings db) k = some m →
      m.old_part_number = k ∧
      pyStripS m.old_part_number = m.old_part_number ∧
      upperStr m.old_part_number = m.old_part_number ∧
      pyStripS m.new_part_number = m.new_part_number ∧
      upperStr m.new_part_number = m.new_part_number) := by
  intro db k
  have hmain : dlookup (load_interchange_mappings db) k =
      if db.connected then
        match (db.interRows.filter (fun r => rowKept r && (rowKey r == k))).getLast? with
        | some r => some (rowMapping r)
        | none => none
      else none := by
    unfold load_interchange_mappings
    split_ifs with hc
    · rw [dlookup_foldl]
      cases hl : (db.interRows.filter (fun r => rowKept r && (rowKey r == k))).getLast? with
      | some x => rfl
      | none => rfl
    · rfl
  refine ⟨hmain, ?_⟩
  intro m hm
  rw [hmain] at hm
  split_ifs at hm with hc
  · cases hl : (db.interRows.filter (fun r => rowKept r && (rowKey r == k))).getLast? with
    | some r =>
      rw [hl] at hm
      cases hm
      have hmem := List.mem_of_getLast?_eq_some hl
      have hcond := (List.mem_filter.mp hmem).2
      have hparts : rowKept r = true ∧ (rowKey r == k) = true := by
        simpa [Bool.and_eq_true] using hcond
      have hkeyeq : rowKey r = k := beq_iff_eq.mp hparts.2
      exact ⟨hkeyeq, (stripUpper_stable _).1, (stripUpper_stable _).2,
        (stripUpper_stable _).1, (stripUpper_stable _).2⟩
    | none =>
      rw [hl] at hm
      cases hm

/-- Witness for C8 on rows exercising normalisation and last-write-wins. -/
theorem interchange_cache_load_spec_witness :
    ("OLD1" : String) = "OLD1" ∧
    pyStripS "OLD1" = "OLD1" ∧ upperStr "OLD1" = "OLD1" ∧
    pyStripS "NEW2" = "NEW2" ∧ upperStr "NEW2" = "NEW2" :=
  (interchange_cache_load_spec dbC8 "OLD1").2
    { old_part_number := "OLD1", new_part_number := "NEW2", interchange_code := "C2" }
    (by decide)

/-- The last element ignores the head when the tail is nonempty. -/
theorem getLast?_cons_ne_nil {α : Type} (a : α) (l : List α) (h : l ≠ []) :
    (a :: l).getLast? = l.getLast? := by
  rw [List.getLast?_cons]
  cases hl : l.getLast? with
  | none =>
    rw [List.getLast?_eq_none_iff] at hl
    exact absurd hl h
  | some x => simp

/-- A scan is never empty. -/
theorem scanl_ne_nil {α β : Type} (f : β → α → β) (b : β) (l : List α) :
    List.scanl f b l ≠ [] := by
  cases l with
  | nil => simp [List.scanl_nil]
  | cons a t => rw [List.scanl_cons]; simp

/-- The last state of a scan is the fold. -/
theorem scanl_getLast? {α β : Type} (f : β → α → β) :
    ∀ (l : List α) (b : β), (List.scanl f b l).getLast? = some (l.foldl f b) := by
  intro l
  induction l with
  | nil => intro b; rfl
  | cons a t ih =>
    intro b
    rw [List.scanl_cons, List.foldl_cons,
      List.getLast?_append_of_ne_nil _ (scanl_ne_nil f (f b a) t), ih]

/-- C9 counterexample: `refresh_interchange_cache` mutates the live mapping in
place — it first clears it and only then reloads — so a concurrent lookup
can observe the intermediate empty cache, a state that is neither the
pre-refresh cache nor the reloaded one. -/
theorem refresh_not_atomic_counterexample :
    (([] : Cache) ∈ refreshStates dbC9 cacheC9) ∧
    decide (([] : Cache) = cacheC9) = false ∧
    decide (([] : Cache) = load_interchange_mappings dbC9) = false ∧
    refreshStates dbC9 cacheC9 = [cacheC9, [], [("B", mapB)]] := by
  refine ⟨by decide, by decide, by decide, by decide⟩

/-- C9 amended: a refresh exposes, in order, the pre-refresh cache, the
cleared (empty) cache — observable by a concurrent reader — and then the
states of the reload, ending in exactly the freshly loaded mapping. -/
theorem refresh_clears_then_reloads :
    ∀ (db : Db) (cache : Cache),
    (refreshStates db cache).head? = some cache ∧
    (refreshStates db cache).tail.head? = some ([] : Cache) ∧
    (refreshStates db cache).getLast? = some (load_interchange_mappings db) := by
  intro db cache
  refine ⟨rfl, rfl, ?_⟩
  unfold refreshStates load_interchange_mappings
  split_ifs with hc
  · cases hrows : db.interRows with
    | nil => rfl
    | cons r rest =>
      rw [List.scanl_cons]
      show (cache :: ([] : Cache) ::
        List.scanl processRow (processRow [] r) rest).getLast? = _
      rw [getLast?_cons_ne_nil _ _ (by simp),
        getLast?_cons_ne_nil _ _ (scanl_ne_nil _ _ _),
        scanl_getLast?, List.foldl_cons]
  · rfl
